import Mathlib

/-!
Verification development for the `pwgen` generator core
(`internal/generator`, Go).  Go strings are modelled as their rune
sequences (`List Char`); Go `int` is modelled as `Int`; the
cryptographically secure entropy source (`crypto/rand`) is modelled as a
stream of draws `Nat → Option Nat`, where `none` means the underlying
source reported an error for that draw and `some v` means the draw
succeeded; a draw used with bound `n` (as in `rand.Int(rand.Reader, n)`)
yields the unbiased value `v % n`.
-/

namespace Pwgen

/-- The entropy source: the `k`-th draw either fails (`none`) or yields a
raw random value. -/
abbrev Entropy := Nat → Option Nat

/-- The distinct error values produced by the generator (one constructor
per `errors.New` / `fmt.Errorf` site in the Go source; arguments mirror
the data interpolated into the message). -/
inductive GenError where
  | lengthNotPositive
  | disabledClassMinimum (cls : String)
  | noClassesEnabled
  | negativeMinimum
  | minimaExceedLength (totalMin len : Int)
  | segmentsNotPositive
  | segmentLengthNotPositive
  | unknownFormat (f : String)
  | emptyCharacterSet
  | entropyFailure
  deriving DecidableEq

/-- Result of a generation: a returned value (with the index of the next
unconsumed entropy draw), a returned error, or a runtime panic
(`crash`, reachable only through the discarded error in `shuffleRunes`). -/
inductive GenRes (α : Type) where
  | ok (a : α) (k : Nat)
  | err (e : GenError)
  | crash
  deriving DecidableEq

/-- `type Format string`. -/
abbrev Format := String

def FormatGeneric : Format := "generic"
def FormatAppKey : Format := "appkey"
def FormatGUID : Format := "guid"

/-- `Options` holds generation parameters (Go struct `generator.Options`). -/
structure Options where
  format : Format
  length : Int
  useLower : Bool
  useUpper : Bool
  useNumber : Bool
  useSymbol : Bool
  minLower : Int
  minUpper : Int
  minNumber : Int
  minSymbol : Int
  segments : Int
  segmentLength : Int
  deriving DecidableEq

/-- `lowerChars = []rune("abcdefghijklmnopqrstuvwxyz")`. -/
def lowerChars : List Char := "abcdefghijklmnopqrstuvwxyz".toList

/-- `upperChars = []rune("ABCDEFGHIJKLMNOPQRSTUVWXYZ")`. -/
def upperChars : List Char := "ABCDEFGHIJKLMNOPQRSTUVWXYZ".toList

/-- `numberChars = []rune("0123456789")`. -/
def numberChars : List Char := "0123456789".toList

/-- `symbolChars = []rune("!@#$%^&*()-_=+[]\x7b\x7d;:,.?/<>~")`. -/
def symbolChars : List Char := "!@#$%^&*()-_=+[]\x7b\x7d;:,.?/<>~".toList

/-- `randomRune` returns a cryptographically random rune from the provided
slice (`rand.Int(rand.Reader, len(set))` indexes `set`); an error from the
entropy source is returned to the caller. -/
def randomRune (set : List Char) (g : Entropy) (k : Nat) :
    Except GenError (Char × Nat) :=
  if h : set.length = 0 then .error .emptyCharacterSet
  else
    match g k with
    | none => .error .entropyFailure
    | some v =>
      .ok (set.get ⟨v % set.length, Nat.mod_lt v (Nat.pos_of_ne_zero h)⟩, k + 1)

/-- A counted `for`-loop appending `n` random runes drawn from `set` to
`out`.  This is the shape of both rune-drawing loops of
`generateGeneric`: the per-class minima loop (`for c := 0; c < minCount;
c++`) and the remainder loop (`for len(out) < o.Length`, which runs
exactly `o.Length - len(out)` iterations since each iteration appends
one rune). -/
def appendRandom (set : List Char) (n : Nat) (out : List Char) (g : Entropy)
    (k : Nat) : Except GenError (List Char × Nat) :=
  match n with
  | 0 => .ok (out, k)
  | m + 1 =>
    match randomRune set g k with
    | .error e => .error e
    | .ok (r, k') => appendRandom set m (out ++ [r]) g k'

/-- The minima-satisfaction loop of `generateGeneric`
(`for i, set := range classSets`, pairing each class set with its
minimum count; the two slices returned by `collectClassesAndValidate`
always have equal length, so the index pairing is a zip).  A negative
`minCount` runs the inner Go loop zero times, hence `.toNat`. -/
def minimaPhase (pairs : List (List Char × Int)) (out : List Char)
    (g : Entropy) (k : Nat) : Except GenError (List Char × Nat) :=
  match pairs with
  | [] => .ok (out, k)
  | (set, minCount) :: rest =>
    match appendRandom set minCount.toNat out g k with
    | .error e => .error e
    | .ok (out', k') => minimaPhase rest out' g k'

/-- `concatClasses` merges rune slices into a single slice (append loop). -/
def concatClasses (classes : List (List Char)) : List Char :=
  classes.foldl (fun acc c => acc ++ c) []

/-- The class-set slice built by `collectClassesAndValidate`: the four
fixed classes in order lower, upper, number, symbol, keeping exactly the
toggled-on ones. -/
def maskedSets (o : Options) : List (List Char) :=
  (if o.useLower then [lowerChars] else []) ++
  (if o.useUpper then [upperChars] else []) ++
  (if o.useNumber then [numberChars] else []) ++
  (if o.useSymbol then [symbolChars] else [])

/-- The minima slice built by `collectClassesAndValidate`, aligned with
`maskedSets`. -/
def maskedMins (o : Options) : List Int :=
  (if o.useLower then [o.minLower] else []) ++
  (if o.useUpper then [o.minUpper] else []) ++
  (if o.useNumber then [o.minNumber] else []) ++
  (if o.useSymbol then [o.minSymbol] else [])

/-- `collectClassesAndValidate` builds the enabled character sets and
validates minima.  The Go code interleaves building `sets`/`mins` with
the per-class disabled-minimum checks (in order lower, upper, number,
symbol, each an early `return`); since the checks do not depend on the
accumulators, this is equivalently: run the four checks in order, then
the built slices are `maskedSets`/`maskedMins`, then check
`len(sets) == 0`, then scan `mins` for a negative entry. -/
def collectClassesAndValidate (o : Options) :
    Except GenError (List (List Char) × List Int) :=
  if o.useLower = false ∧ 0 < o.minLower then
    .error (.disabledClassMinimum "lower")
  else if o.useUpper = false ∧ 0 < o.minUpper then
    .error (.disabledClassMinimum "upper")
  else if o.useNumber = false ∧ 0 < o.minNumber then
    .error (.disabledClassMinimum "number")
  else if o.useSymbol = false ∧ 0 < o.minSymbol then
    .error (.disabledClassMinimum "symbol")
  else if (maskedSets o).length = 0 then
    .error .noClassesEnabled
  else if (maskedMins o).any (fun v => decide (v < 0)) then
    .error .negativeMinimum
  else
    .ok (maskedSets o, maskedMins o)

/-- The simultaneous swap `r[i], r[j] = r[j], r[i]`. -/
def listSwap (r : List Char) (i j : Nat) : List Char :=
  (r.set i (r.getD j ' ')).set j (r.getD i ' ')

/-- The body of `shuffleRunes`: `for i := len(r)-1; i > 0; i--`, drawing
`j` uniformly in `[0, i]` and swapping.  The Go code discards the error
from `rand.Int` (`jBig, _ := ...`); on a failed draw `jBig` is nil and
`jBig.Int64()` panics with a nil dereference, modelled as `none`. -/
def shuffleLoop (r : List Char) (i : Nat) (g : Entropy) (k : Nat) :
    Option (List Char × Nat) :=
  match i with
  | 0 => some (r, k)
  | m + 1 =>
    match g k with
    | none => none
    | some v => shuffleLoop (listSwap r (m + 1) (v % (m + 2))) m g (k + 1)

/-- `shuffleRunes` performs an in-place Fisher–Yates shuffle using
`crypto/rand`. -/
def shuffleRunes (r : List Char) (g : Entropy) (k : Nat) :
    Option (List Char × Nat) :=
  shuffleLoop r (r.length - 1) g k

/-- `generateGeneric` handles the basic random password generation (the
Go locals `totalMin` and `all` are inlined). -/
def generateGeneric (o : Options) (g : Entropy) (k : Nat) :
    GenRes (List Char) :=
  if o.length ≤ 0 then .err .lengthNotPositive
  else
    match collectClassesAndValidate o with
    | .error e => .err e
    | .ok (classSets, minima) =>
      if minima.foldl (fun a v => a + v) 0 > o.length then
        .err (.minimaExceedLength (minima.foldl (fun a v => a + v) 0) o.length)
      else
        match minimaPhase (classSets.zip minima) [] g k with
        | .error e => .err e
        | .ok (out1, k1) =>
          match appendRandom (concatClasses classSets)
              (o.length.toNat - out1.length) out1 g k1 with
          | .error e => .err e
          | .ok (out2, k2) =>
            match shuffleRunes out2 g k2 with
            | none => .crash
            | some (out3, k3) => .ok out3 k3

/-- The dash-insertion loop of `generateAppKey`
(`for i, r := range core`, writing a `'-'` before the rune whenever
`i > 0 && i % o.SegmentLength == 0`; all generated runes are ASCII so
the byte index `i` equals the rune index). -/
def dashLoop (core : List Char) (segLen : Int) (i : Nat) : List Char :=
  match core with
  | [] => []
  | c :: rest =>
    (if 0 < i ∧ (i : Int) % segLen = 0 then ['-', c] else [c]) ++
      dashLoop rest segLen (i + 1)

/-- `generateAppKey` creates a segmented key of
`Segments * SegmentLength` characters, reusing the generic logic on a
copy of the options with the derived length. -/
def generateAppKey (o : Options) (g : Entropy) (k : Nat) :
    GenRes (List Char) :=
  if o.segments ≤ 0 then .err .segmentsNotPositive
  else if o.segmentLength ≤ 0 then .err .segmentLengthNotPositive
  else
    match generateGeneric
        { o with length := o.segments * o.segmentLength,
                 format := FormatGeneric } g k with
    | .err e => .err e
    | .crash => .crash
    | .ok core k' => .ok (dashLoop core o.segmentLength 0) k'

/-- `const hexdigits = "0123456789abcdef"`. -/
def hexdigits : List Char := "0123456789abcdef".toList

/-- `hex(x)` renders one byte as two lowercase hex digits
(`hexdigits[x>>4], hexdigits[x&0x0F]`). -/
def hexByte (x : Nat) : List Char :=
  [hexdigits.getD (x >>> 4) ' ', hexdigits.getD (x &&& 0x0F) ' ']

/-- `rand.Read(b)` for a buffer of `n` bytes, modelled as `n` successive
draws reduced mod 256; a failing read returns no bytes. -/
def readBytes (g : Entropy) (k : Nat) (n : Nat) : Option (List Nat) :=
  match n with
  | 0 => some []
  | m + 1 =>
    match g k with
    | none => none
    | some v => (readBytes g (k + 1) m).map (fun rest => (v % 256) :: rest)

/-- The rendering loop of `generateUUIDv4` (`for i, v := range b`,
appending `hex(v)` and a `'-'` after byte indices 3, 5, 7, 9). -/
def uuidHexLoop (bs : List Nat) (i : Nat) : List Char :=
  match bs with
  | [] => []
  | b :: rest =>
    hexByte b ++ (if i = 3 ∨ i = 5 ∨ i = 7 ∨ i = 9 then ['-'] else []) ++
      uuidHexLoop rest (i + 1)

/-- `generateUUIDv4` builds an RFC 4122 version 4 UUID: 16 random bytes,
then `b[6] = (b[6] & 0x0F) | 0x40` and `b[8] = (b[8] & 0x3F) | 0x80`,
rendered in hex with dashes. -/
def generateUUIDv4 (g : Entropy) (k : Nat) : GenRes (List Char) :=
  match readBytes g k 16 with
  | none => .err .entropyFailure
  | some b0 =>
    let b1 := b0.set 6 ((b0.getD 6 0 &&& 0x0F) ||| 0x40)
    let b2 := b1.set 8 ((b1.getD 8 0 &&& 0x3F) ||| 0x80)
    .ok (uuidHexLoop b2 0) (k + 16)

/-- `Generate` produces a password / key string according to the provided
`Options` (dispatch on the format). -/
def Generate (o : Options) (g : Entropy) (k : Nat) : GenRes (List Char) :=
  if o.format = FormatGUID then generateUUIDv4 g k
  else if o.format = FormatAppKey then generateAppKey o g k
  else if o.format = FormatGeneric then generateGeneric o g k
  else .err (.unknownFormat o.format)

/-- Modelled from the spec (§4.4): split a flat sequence into `s` groups
of `t` characters, in original order.  Used to state the refinement
claim about `generateAppKey`. -/
def chunkList (core : List Char) (s t : Nat) : List (List Char) :=
  match s with
  | 0 => []
  | s' + 1 => core.take t :: chunkList (core.drop t) s' t

/-- Modelled from the spec (§4.4): join groups with single dashes. -/
def joinWithDash : List (List Char) → List Char
  | [] => []
  | [c] => c
  | c :: rest => c ++ '-' :: joinWithDash rest

/-- Number of characters of `out` that belong to the character set
`set`. -/
def countIn (out set : List Char) : Nat :=
  out.countP (fun c => decide (c ∈ set))

/-- The all-zero entropy stream: every draw succeeds with raw value 0.
Used to instantiate theorems at concrete inputs. -/
def gZero : Entropy := fun _ => some 0

/-! ### Basic lemmas about the drawing primitives -/

theorem randomRune_ok {set : List Char} {g : Entropy} {k : Nat} {r : Char}
    {k' : Nat} (h : randomRune set g k = .ok (r, k')) :
    r ∈ set ∧ k' = k + 1 := by
  unfold randomRune at h
  split at h
  · exact absurd h (by simp)
  · split at h
    · exact absurd h (by simp)
    · refine ⟨?_, ?_⟩
      · cases h
        exact List.get_mem _ _ _
      · cases h
        rfl

theorem randomRune_total {set : List Char} (g : Entropy) (k : Nat)
    (hset : set.length ≠ 0) (hg : (g k).isSome) :
    ∃ r, randomRune set g k = .ok (r, k + 1) := by
  rcases hgk : g k with _ | v
  · rw [hgk] at hg
    simp at hg
  · refine ⟨set.get ⟨v % set.length, Nat.mod_lt v (Nat.pos_of_ne_zero hset)⟩, ?_⟩
    simp only [randomRune, dif_neg hset, hgk]

theorem appendRandom_ok {set : List Char} {g : Entropy} :
    ∀ {n : Nat} {out out' : List Char} {k k' : Nat},
      appendRandom set n out g k = .ok (out', k') →
      ∃ fresh, out' = out ++ fresh ∧ fresh.length = n ∧
        ∀ c ∈ fresh, c ∈ set := by
  intro n
  induction n with
  | zero =>
    intro out out' k k' h
    unfold appendRandom at h
    cases h
    exact ⟨[], by simp⟩
  | succ m ih =>
    intro out out' k k' h
    unfold appendRandom at h
    split at h
    · exact absurd h (by simp)
    · rename_i r k1 hrr
      obtain ⟨fresh, hfe, hfl, hfm⟩ := ih h
      have hr := randomRune_ok hrr
      refine ⟨r :: fresh, ?_, by simp [hfl], ?_⟩
      · simp [hfe]
      · intro c hc
        rcases List.mem_cons.mp hc with hc | hc
        · exact hc ▸ hr.1
        · exact hfm c hc

theorem appendRandom_total {set : List Char} {g : Entropy}
    (hg : ∀ j, (g j).isSome) (hset : set.length ≠ 0) :
    ∀ (n : Nat) (out : List Char) (k : Nat),
      ∃ out' k', appendRandom set n out g k = .ok (out', k') := by
  intro n
  induction n with
  | zero =>
    intro out k
    exact ⟨out, k, rfl⟩
  | succ m ih =>
    intro out k
    obtain ⟨r, hr⟩ := randomRune_total g k hset (hg k)
    obtain ⟨out', k', h'⟩ := ih (out ++ [r]) (k + 1)
    refine ⟨out', k', ?_⟩
    unfold appendRandom
    rw [hr]
    exact h'

theorem appendRandom_zero {set : List Char} {g : Entropy} {out : List Char}
    {k : Nat} : appendRandom set 0 out g k = .ok (out, k) := rfl

/-- Sum of (clamped) minima drawn by the minima loop. -/
def minSum (pairs : List (List Char × Int)) : Nat :=
  (pairs.map (fun p => p.2.toNat)).sum

theorem minimaPhase_ok {g : Entropy} :
    ∀ {pairs : List (List Char × Int)} {out out' : List Char} {k k' : Nat},
      minimaPhase pairs out g k = .ok (out', k') →
      ∃ fresh, out' = out ++ fresh ∧ fresh.length = minSum pairs ∧
        ∀ c ∈ fresh, ∃ p ∈ pairs, c ∈ p.1 := by
  intro pairs
  induction pairs with
  | nil =>
    intro out out' k k' h
    cases h
    exact ⟨[], by simp [minSum]⟩
  | cons p rest ih =>
    intro out out' k k' h
    obtain ⟨s, m⟩ := p
    unfold minimaPhase at h
    split at h
    · exact absurd h (by simp)
    · rename_i out1 k1 har
      obtain ⟨f1, hf1e, hf1l, hf1m⟩ := appendRandom_ok har
      obtain ⟨f2, hf2e, hf2l, hf2m⟩ := ih h
      refine ⟨f1 ++ f2, ?_, ?_, ?_⟩
      · rw [hf2e, hf1e, List.append_assoc]
      · simp only [List.length_append, hf1l, hf2l, minSum, List.map_cons,
          List.sum_cons]
      · intro c hc
        rcases List.mem_append.mp hc with hc | hc
        · exact ⟨(s, m), List.mem_cons_self _ _, hf1m c hc⟩
        · obtain ⟨q, hq, hcq⟩ := hf2m c hc
          exact ⟨q, List.mem_cons_of_mem _ hq, hcq⟩

theorem minimaPhase_total {g : Entropy} (hg : ∀ j, (g j).isSome) :
    ∀ (pairs : List (List Char × Int)),
      (∀ p ∈ pairs, p.1.length ≠ 0 ∨ p.2.toNat = 0) →
      ∀ (out : List Char) (k : Nat),
        ∃ out' k', minimaPhase pairs out g k = .ok (out', k') := by
  intro pairs
  induction pairs with
  | nil =>
    intro _ out k
    exact ⟨out, k, rfl⟩
  | cons p rest ih =>
    intro hps out k
    obtain ⟨s, m⟩ := p
    rcases hps (s, m) (List.mem_cons_self _ _) with hs | hm
    · obtain ⟨out1, k1, h1⟩ := appendRandom_total hg hs m.toNat out k
      obtain ⟨out', k', h'⟩ := ih (fun q hq => hps q (List.mem_cons_of_mem _ hq)) out1 k1
      refine ⟨out', k', ?_⟩
      unfold minimaPhase
      rw [h1]
      exact h'
    · obtain ⟨out', k', h'⟩ := ih (fun q hq => hps q (List.mem_cons_of_mem _ hq)) out k
      refine ⟨out', k', ?_⟩
      unfold minimaPhase
      simp only [hm]
      rw [appendRandom_zero]
      exact h'

theorem concatClasses_eq_flatten (classes : List (List Char)) :
    concatClasses classes = classes.flatten := by
  unfold concatClasses
  suffices h : ∀ (L : List (List Char)) (a : List Char),
      L.foldl (fun acc c => acc ++ c) a = a ++ L.flatten by
    simpa using h classes []
  intro L
  induction L with
  | nil => simp
  | cons c L ih =>
    intro a
    simp [List.foldl_cons, ih]

theorem mem_concatClasses {c : Char} {classes : List (List Char)} :
    c ∈ concatClasses classes ↔ ∃ s ∈ classes, c ∈ s := by
  rw [concatClasses_eq_flatten]
  simp [List.mem_flatten]

theorem foldl_add_init (l : List Int) :
    ∀ a : Int, l.foldl (fun x v => x + v) a = a + l.foldl (fun x v => x + v) 0 := by
  induction l with
  | nil => simp
  | cons v l ih =>
    intro a
    simp only [List.foldl_cons]
    rw [ih (a + v), ih (0 + v)]
    ring

theorem toNat_sum_of_nonneg (l : List Int) (h : ∀ v ∈ l, 0 ≤ v) :
    ((l.map Int.toNat).sum : Int) = l.foldl (fun x v => x + v) 0 := by
  induction l with
  | nil => simp
  | cons v l ih =>
    simp only [List.map_cons, List.sum_cons, List.foldl_cons]
    rw [foldl_add_init l (0 + v)]
    have hv : 0 ≤ v := h v (List.mem_cons_self _ _)
    rw [Nat.cast_add, Int.toNat_of_nonneg hv,
      ih (fun x hx => h x (List.mem_cons_of_mem _ hx))]
    ring

/-! ### Counting lemmas -/

theorem countIn_append (a b target : List Char) :
    countIn (a ++ b) target = countIn a target + countIn b target := by
  simp [countIn, List.countP_append]

theorem countIn_all_mem {fresh target : List Char}
    (h : ∀ c ∈ fresh, c ∈ target) : countIn fresh target = fresh.length := by
  unfold countIn
  induction fresh with
  | nil => simp
  | cons c fresh ih =>
    rw [List.countP_cons_of_pos _ _ (by simp [h c (List.mem_cons_self _ _)])]
    simp [ih (fun x hx => h x (List.mem_cons_of_mem _ hx))]

theorem countIn_eq_zero {fresh target : List Char}
    (h : ∀ c ∈ fresh, c ∉ target) : countIn fresh target = 0 := by
  unfold countIn
  rw [List.countP_eq_zero]
  intro a ha
  simp [h a ha]

theorem minimaPhase_count_ge {g : Entropy} :
    ∀ {pairs : List (List Char × Int)} {out out' : List Char} {k k' : Nat},
      minimaPhase pairs out g k = .ok (out', k') →
      ∀ p ∈ pairs, countIn out p.1 + p.2.toNat ≤ countIn out' p.1 := by
  intro pairs
  induction pairs with
  | nil =>
    intro out out' k k' h p hp
    exact absurd hp (List.not_mem_nil p)
  | cons q rest ih =>
    intro out out' k k' h p hp
    obtain ⟨s, m⟩ := q
    unfold minimaPhase at h
    split at h
    · exact absurd h (by simp)
    · rename_i out1 k1 har
      obtain ⟨f1, hf1e, hf1l, hf1m⟩ := appendRandom_ok har
      rcases List.mem_cons.mp hp with hp | hp
      · subst hp
        obtain ⟨f2, hf2e, _, _⟩ := minimaPhase_ok h
        rw [hf2e, hf1e, countIn_append, countIn_append,
          countIn_all_mem hf1m, hf1l]
        omega
      · have := ih h p hp
        rw [hf1e, countIn_append] at this
        omega

/-- The total minima contribution of the pairs whose class set lies inside
`target`. -/
def condSum (target : List Char) (pairs : List (List Char × Int)) : Nat :=
  (pairs.map (fun p =>
    if p.1.all (fun c => decide (c ∈ target)) then p.2.toNat else 0)).sum

theorem minimaPhase_count_exact {g : Entropy} {target : List Char} :
    ∀ {pairs : List (List Char × Int)} {out out' : List Char} {k k' : Nat},
      minimaPhase pairs out g k = .ok (out', k') →
      (∀ p ∈ pairs, (∀ c ∈ p.1, c ∈ target) ∨ (∀ c ∈ p.1, c ∉ target)) →
      countIn out' target = countIn out target + condSum target pairs := by
  intro pairs
  induction pairs with
  | nil =>
    intro out out' k k' h _
    cases h
    simp [condSum]
  | cons q rest ih =>
    intro out out' k k' h hdisj
    obtain ⟨s, m⟩ := q
    unfold minimaPhase at h
    split at h
    · exact absurd h (by simp)
    · rename_i out1 k1 har
      obtain ⟨f1, hf1e, hf1l, hf1m⟩ := appendRandom_ok har
      have hrest := ih h (fun p hp => hdisj p (List.mem_cons_of_mem _ hp))
      have hsum : condSum target ((s, m) :: rest) =
          (if s.all (fun c => decide (c ∈ target)) then m.toNat else 0) +
            condSum target rest := by
        simp [condSum]
      have hblock : countIn f1 target =
          (if s.all (fun c => decide (c ∈ target)) then m.toNat else 0) := by
        rcases hdisj (s, m) (List.mem_cons_self _ _) with hin | hout
        · have hall : s.all (fun c => decide (c ∈ target)) = true :=
            List.all_eq_true.mpr (fun c hc => by simpa using hin c hc)
          rw [hall, if_pos rfl,
            countIn_all_mem (fun c hc => hin c (hf1m c hc)), hf1l]
        · rcases hall : s.all (fun c => decide (c ∈ target)) with _ | _
          · rw [if_neg (by simp)]
            exact countIn_eq_zero (fun c hc => hout c (hf1m c hc))
          · -- `s` is both contained in and disjoint from `target`, so `s`
            -- and hence the fresh block are empty
            have hs : s = [] := by
              cases s with
              | nil => rfl
              | cons c s' =>
                have hct : c ∈ target := by
                  simpa using List.all_eq_true.mp hall c (List.mem_cons_self _ _)
                exact absurd hct (hout c (List.mem_cons_self _ _))
            have hf1 : f1 = [] := by
              cases f1 with
              | nil => rfl
              | cons c f1' =>
                have hcs := hf1m c (List.mem_cons_self _ _)
                rw [hs] at hcs
                exact absurd hcs (List.not_mem_nil c)
            rw [if_pos rfl, ← hf1l, hf1]
            simp [countIn]
      rw [hrest, hf1e, countIn_append, hsum, hblock]
      omega

/-! ### The Fisher–Yates shuffle permutes its input -/

theorem getD_cons_set_perm {d : Char} :
    ∀ (t : List Char) (m : Nat) (a : Char), m < t.length →
      List.Perm (t.getD m d :: t.set m a) (a :: t) := by
  intro t
  induction t with
  | nil =>
    intro m a hm
    simp at hm
  | cons b t ih =>
    intro m a hm
    cases m with
    | zero =>
      simp only [List.getD_cons_zero, List.set_cons_zero]
      exact List.Perm.swap a b t
    | succ m =>
      simp only [List.getD_cons_succ, List.set_cons_succ]
      have h1 : List.Perm (t.getD m d :: b :: t.set m a)
          (b :: t.getD m d :: t.set m a) := List.Perm.swap b (t.getD m d) _
      have h2 : List.Perm (b :: t.getD m d :: t.set m a) (b :: a :: t) :=
        List.Perm.cons b (ih m a (by simpa using hm))
      have h3 : List.Perm (b :: a :: t) (a :: b :: t) := List.Perm.swap a b t
      exact (h1.trans h2).trans h3

theorem listSwap_perm :
    ∀ (r : List Char) (i j : Nat), i < r.length → j < r.length →
      List.Perm (listSwap r i j) r := by
  intro r
  induction r with
  | nil =>
    intro i j hi _
    simp at hi
  | cons a t ih =>
    intro i j hi hj
    cases i with
    | zero =>
      cases j with
      | zero =>
        simp [listSwap]
      | succ m =>
        have hm : m < t.length := by simpa using hj
        simp only [listSwap, List.getD_cons_succ, List.set_cons_zero,
          List.getD_cons_zero, List.set_cons_succ]
        exact getD_cons_set_perm t m a hm
    | succ n =>
      cases j with
      | zero =>
        have hn : n < t.length := by simpa using hi
        simp only [listSwap, List.getD_cons_zero, List.set_cons_succ,
          List.getD_cons_succ, List.set_cons_zero]
        exact getD_cons_set_perm t n a hn
      | succ m =>
        have hn : n < t.length := by simpa using hi
        have hm : m < t.length := by simpa using hj
        simp only [listSwap, List.getD_cons_succ, List.set_cons_succ]
        exact List.Perm.cons a (ih n m hn hm)

theorem shuffleLoop_perm {g : Entropy} :
    ∀ (i : Nat) (r : List Char) (k : Nat) {r' : List Char} {k' : Nat},
      i < r.length → shuffleLoop r i g k = some (r', k') →
      List.Perm r' r := by
  intro i
  induction i with
  | zero =>
    intro r k r' k' _ h
    cases h
    exact List.Perm.refl _
  | succ m ih =>
    intro r k r' k' hi h
    unfold shuffleLoop at h
    split at h
    · exact absurd h (by simp)
    · rename_i v hv
      have hswap : List.Perm (listSwap r (m + 1) (v % (m + 2))) r :=
        listSwap_perm r (m + 1) (v % (m + 2)) hi
          (lt_of_le_of_lt (Nat.le_of_lt_succ (Nat.mod_lt v (by omega))) hi)
      have hlen : m < (listSwap r (m + 1) (v % (m + 2))).length := by
        have := hswap.length_eq
        omega
      exact (ih _ _ hlen h).trans hswap

theorem shuffleRunes_perm {g : Entropy} {r r' : List Char} {k k' : Nat}
    (h : shuffleRunes r g k = some (r', k')) : List.Perm r' r := by
  unfold shuffleRunes at h
  rcases hr : r with _ | ⟨a, t⟩
  · subst hr
    cases h
    exact List.Perm.refl _
  · subst hr
    rcases Nat.eq_zero_or_pos t.length with ht | ht
    · have h0 : (a :: t).length - 1 = 0 := by simp [ht]
      rw [h0] at h
      cases h
      exact List.Perm.refl _
    · have hlt : (a :: t).length - 1 < (a :: t).length := by simp
      exact shuffleLoop_perm _ _ _ hlt h

theorem shuffleLoop_total {g : Entropy} (hg : ∀ j, (g j).isSome) :
    ∀ (i : Nat) (r : List Char) (k : Nat),
      ∃ r' k', shuffleLoop r i g k = some (r', k') := by
  intro i
  induction i with
  | zero =>
    intro r k
    exact ⟨r, k, rfl⟩
  | succ m ih =>
    intro r k
    rcases hv : g k with _ | v
    · have := hg k
      rw [hv] at this
      simp at this
    · obtain ⟨r', k', h'⟩ := ih (listSwap r (m + 1) (v % (m + 2))) (k + 1)
      refine ⟨r', k', ?_⟩
      unfold shuffleLoop
      rw [hv]
      exact h'

theorem shuffleRunes_total {g : Entropy} (hg : ∀ j, (g j).isSome)
    (r : List Char) (k : Nat) :
    ∃ r' k', shuffleRunes r g k = some (r', k') :=
  shuffleLoop_total hg _ r k

/-! ### The class pool built by `collectClassesAndValidate` -/

/-- The class pool: the index pairing of the two slices returned by
`collectClassesAndValidate`. -/
def maskedPairs (o : Options) : List (List Char × Int) :=
  (if o.useLower then [(lowerChars, o.minLower)] else []) ++
  (if o.useUpper then [(upperChars, o.minUpper)] else []) ++
  (if o.useNumber then [(numberChars, o.minNumber)] else []) ++
  (if o.useSymbol then [(symbolChars, o.minSymbol)] else [])

theorem masked_zip (o : Options) :
    (maskedSets o).zip (maskedMins o) = maskedPairs o := by
  unfold maskedSets maskedMins maskedPairs
  cases hl : o.useLower <;> cases hu : o.useUpper <;>
    cases hn : o.useNumber <;> cases hs : o.useSymbol <;> simp

theorem maskedPairs_snd (o : Options) :
    (maskedPairs o).map (fun p => p.2) = maskedMins o := by
  unfold maskedMins maskedPairs
  cases hl : o.useLower <;> cases hu : o.useUpper <;>
    cases hn : o.useNumber <;> cases hs : o.useSymbol <;> simp

theorem maskedPairs_fst_mem {o : Options} {p : List Char × Int}
    (h : p ∈ maskedPairs o) : p.1 ∈ maskedSets o := by
  rw [← masked_zip] at h
  obtain ⟨s, m⟩ := p
  exact (List.of_mem_zip h).1

theorem maskedSets_mem {o : Options} {s : List Char} (h : s ∈ maskedSets o) :
    (o.useLower = true ∧ s = lowerChars) ∨
    (o.useUpper = true ∧ s = upperChars) ∨
    (o.useNumber = true ∧ s = numberChars) ∨
    (o.useSymbol = true ∧ s = symbolChars) := by
  unfold maskedSets at h
  cases hl : o.useLower <;> cases hu : o.useUpper <;>
    cases hn : o.useNumber <;> cases hs : o.useSymbol <;>
    simp_all

theorem mem_maskedPairs_lower {o : Options} (h : o.useLower = true) :
    (lowerChars, o.minLower) ∈ maskedPairs o := by
  unfold maskedPairs
  simp [h]

theorem mem_maskedPairs_upper {o : Options} (h : o.useUpper = true) :
    (upperChars, o.minUpper) ∈ maskedPairs o := by
  unfold maskedPairs
  cases hl : o.useLower <;> simp [h]

theorem mem_maskedPairs_number {o : Options} (h : o.useNumber = true) :
    (numberChars, o.minNumber) ∈ maskedPairs o := by
  unfold maskedPairs
  cases hl : o.useLower <;> cases hu : o.useUpper <;> simp [h]

theorem mem_maskedPairs_symbol {o : Options} (h : o.useSymbol = true) :
    (symbolChars, o.minSymbol) ∈ maskedPairs o := by
  unfold maskedPairs
  cases hl : o.useLower <;> cases hu : o.useUpper <;>
    cases hn : o.useNumber <;> simp [h]

theorem lowerChars_ne_nil : lowerChars.length ≠ 0 := by decide
theorem upperChars_ne_nil : upperChars.length ≠ 0 := by decide
theorem numberChars_ne_nil : numberChars.length ≠ 0 := by decide
theorem symbolChars_ne_nil : symbolChars.length ≠ 0 := by decide

theorem lower_sub_lower : ∀ c ∈ lowerChars, c ∈ lowerChars := fun _ hc => hc
theorem lower_not_upper : ∀ c ∈ lowerChars, c ∉ upperChars := by decide
theorem lower_not_number : ∀ c ∈ lowerChars, c ∉ numberChars := by decide
theorem lower_not_symbol : ∀ c ∈ lowerChars, c ∉ symbolChars := by decide
theorem upper_not_lower : ∀ c ∈ upperChars, c ∉ lowerChars := by decide
theorem upper_not_number : ∀ c ∈ upperChars, c ∉ numberChars := by decide
theorem upper_not_symbol : ∀ c ∈ upperChars, c ∉ symbolChars := by decide
theorem number_not_lower : ∀ c ∈ numberChars, c ∉ lowerChars := by decide
theorem number_not_upper : ∀ c ∈ numberChars, c ∉ upperChars := by decide
theorem number_not_symbol : ∀ c ∈ numberChars, c ∉ symbolChars := by decide
theorem symbol_not_lower : ∀ c ∈ symbolChars, c ∉ lowerChars := by decide
theorem symbol_not_upper : ∀ c ∈ symbolChars, c ∉ upperChars := by decide
theorem symbol_not_number : ∀ c ∈ symbolChars, c ∉ numberChars := by decide

theorem maskedSets_ne_nil {o : Options} {s : List Char}
    (h : s ∈ maskedSets o) : s.length ≠ 0 := by
  rcases maskedSets_mem h with ⟨_, h⟩ | ⟨_, h⟩ | ⟨_, h⟩ | ⟨_, h⟩ <;>
    subst h
  · exact lowerChars_ne_nil
  · exact upperChars_ne_nil
  · exact numberChars_ne_nil
  · exact symbolChars_ne_nil

theorem collect_ok_elim {o : Options} {S : List (List Char)} {M : List Int}
    (h : collectClassesAndValidate o = .ok (S, M)) :
    S = maskedSets o ∧ M = maskedMins o ∧
    ¬(o.useLower = false ∧ 0 < o.minLower) ∧
    ¬(o.useUpper = false ∧ 0 < o.minUpper) ∧
    ¬(o.useNumber = false ∧ 0 < o.minNumber) ∧
    ¬(o.useSymbol = false ∧ 0 < o.minSymbol) ∧
    (maskedSets o).length ≠ 0 ∧
    (∀ v ∈ maskedMins o, 0 ≤ v) := by
  unfold collectClassesAndValidate at h
  split at h
  · exact absurd h (by simp)
  split at h
  · exact absurd h (by simp)
  split at h
  · exact absurd h (by simp)
  split at h
  · exact absurd h (by simp)
  split at h
  · exact absurd h (by simp)
  split at h
  · exact absurd h (by simp)
  rename_i h1 h2 h3 h4 h5 h6
  cases h
  refine ⟨rfl, rfl, h1, h2, h3, h4, h5, ?_⟩
  intro v hv
  by_contra hneg
  exact h6 (List.any_eq_true.mpr ⟨v, hv, by simp; omega⟩)

theorem collect_err_noClasses {o : Options}
    (h1 : ¬(o.useLower = false ∧ 0 < o.minLower))
    (h2 : ¬(o.useUpper = false ∧ 0 < o.minUpper))
    (h3 : ¬(o.useNumber = false ∧ 0 < o.minNumber))
    (h4 : ¬(o.useSymbol = false ∧ 0 < o.minSymbol))
    (h5 : (maskedSets o).length = 0) :
    collectClassesAndValidate o = .error .noClassesEnabled := by
  unfold collectClassesAndValidate
  rw [if_neg h1, if_neg h2, if_neg h3, if_neg h4, if_pos h5]

theorem collect_err_negative {o : Options}
    (h1 : ¬(o.useLower = false ∧ 0 < o.minLower))
    (h2 : ¬(o.useUpper = false ∧ 0 < o.minUpper))
    (h3 : ¬(o.useNumber = false ∧ 0 < o.minNumber))
    (h4 : ¬(o.useSymbol = false ∧ 0 < o.minSymbol))
    (h5 : (maskedSets o).length ≠ 0)
    (h6 : (maskedMins o).any (fun v => decide (v < 0)) = true) :
    collectClassesAndValidate o = .error .negativeMinimum := by
  unfold collectClassesAndValidate
  rw [if_neg h1, if_neg h2, if_neg h3, if_neg h4, if_neg h5, if_pos h6]

theorem collect_err_disabled {o : Options}
    (h : (o.useLower = false ∧ 0 < o.minLower) ∨
      (o.useUpper = false ∧ 0 < o.minUpper) ∨
      (o.useNumber = false ∧ 0 < o.minNumber) ∨
      (o.useSymbol = false ∧ 0 < o.minSymbol)) :
    ∃ cls, collectClassesAndValidate o = .error (.disabledClassMinimum cls) := by
  unfold collectClassesAndValidate
  by_cases h1 : o.useLower = false ∧ 0 < o.minLower
  · exact ⟨"lower", by rw [if_pos h1]⟩
  rw [if_neg h1]
  by_cases h2 : o.useUpper = false ∧ 0 < o.minUpper
  · exact ⟨"upper", by rw [if_pos h2]⟩
  rw [if_neg h2]
  by_cases h3 : o.useNumber = false ∧ 0 < o.minNumber
  · exact ⟨"number", by rw [if_pos h3]⟩
  rw [if_neg h3]
  have h4 : o.useSymbol = false ∧ 0 < o.minSymbol := by tauto
  exact ⟨"symbol", by rw [if_pos h4]⟩

theorem collect_ok_of_checks {o : Options}
    (h1 : ¬(o.useLower = false ∧ 0 < o.minLower))
    (h2 : ¬(o.useUpper = false ∧ 0 < o.minUpper))
    (h3 : ¬(o.useNumber = false ∧ 0 < o.minNumber))
    (h4 : ¬(o.useSymbol = false ∧ 0 < o.minSymbol))
    (h5 : (maskedSets o).length ≠ 0)
    (h6 : (maskedMins o).any (fun v => decide (v < 0)) = false) :
    collectClassesAndValidate o = .ok (maskedSets o, maskedMins o) := by
  unfold collectClassesAndValidate
  rw [if_neg h1, if_neg h2, if_neg h3, if_neg h4, if_neg h5,
    if_neg (by simp [h6])]

/-! ### Dispatch lemmas for `Generate` -/

theorem Generate_eq_guid {o : Options} (g : Entropy) (k : Nat)
    (h : o.format = FormatGUID) : Generate o g k = generateUUIDv4 g k := by
  unfold Generate
  rw [h, if_pos rfl]

theorem Generate_eq_appkey {o : Options} (g : Entropy) (k : Nat)
    (h : o.format = FormatAppKey) : Generate o g k = generateAppKey o g k := by
  unfold Generate
  rw [h, if_neg (by decide), if_pos rfl]

theorem Generate_eq_generic {o : Options} (g : Entropy) (k : Nat)
    (h : o.format = FormatGeneric) : Generate o g k = generateGeneric o g k := by
  unfold Generate
  rw [h, if_neg (by decide), if_neg (by decide), if_pos rfl]

/-! ### What a successful generic generation guarantees -/

theorem minSum_eq (o : Options) :
    minSum (maskedPairs o) = ((maskedMins o).map Int.toNat).sum := by
  unfold minSum
  rw [← maskedPairs_snd o, List.map_map]
  rfl

theorem generateGeneric_ok {o : Options} {g : Entropy} {k : Nat}
    {out : List Char} {k' : Nat}
    (h : generateGeneric o g k = .ok out k') :
    0 < o.length ∧
    collectClassesAndValidate o = .ok (maskedSets o, maskedMins o) ∧
    out.length = o.length.toNat ∧
    (∀ c ∈ out, ∃ s ∈ maskedSets o, c ∈ s) ∧
    (∀ p ∈ maskedPairs o, p.2.toNat ≤ countIn out p.1) ∧
    (minSum (maskedPairs o) = o.length.toNat →
      ∀ target, (∀ p ∈ maskedPairs o,
          (∀ c ∈ p.1, c ∈ target) ∨ (∀ c ∈ p.1, c ∉ target)) →
        countIn out target = condSum target (maskedPairs o)) := by
  unfold generateGeneric at h
  split at h
  · exact absurd h (by simp)
  rename_i hlen
  split at h
  · exact absurd h (by simp)
  rename_i classSets minima heq
  obtain ⟨hS, hM, _, _, _, _, _, hnn⟩ := collect_ok_elim heq
  subst hS
  subst hM
  split at h
  · exact absurd h (by simp)
  rename_i hsum
  rw [masked_zip] at h
  split at h
  · exact absurd h (by simp)
  rename_i out1 k1 hmin
  split at h
  · exact absurd h (by simp)
  rename_i out2 k2 hfill
  split at h
  · exact absurd h (by simp)
  rename_i out3 k3 hsh
  cases h
  obtain ⟨f1, hf1e, hf1l, hf1m⟩ := minimaPhase_ok hmin
  obtain ⟨f2, hf2e, hf2l, hf2m⟩ := appendRandom_ok hfill
  have hperm := shuffleRunes_perm hsh
  -- the minima phase never overfills: its length is the clamped sum of
  -- the minima, which the `totalMin > o.Length` check bounds by the length
  have hms : ((minSum (maskedPairs o) : Int)) =
      (maskedMins o).foldl (fun a v => a + v) 0 := by
    rw [minSum_eq]
    exact toNat_sum_of_nonneg _ hnn
  have hout1 : out1.length = minSum (maskedPairs o) := by
    rw [hf1e]
    simpa using hf1l
  have hle : out1.length ≤ o.length.toNat := by
    rw [hout1]
    omega
  have hlen2 : out2.length = o.length.toNat := by
    rw [hf2e, List.length_append, hf2l]
    omega
  refine ⟨by omega, heq, ?_, ?_, ?_, ?_⟩
  · rw [hperm.length_eq, hlen2]
  · intro c hc
    rw [hperm.mem_iff] at hc
    rw [hf2e] at hc
    rcases List.mem_append.mp hc with hc | hc
    · rw [hf1e] at hc
      simp only [List.nil_append] at hc
      obtain ⟨p, hp, hcp⟩ := hf1m c hc
      exact ⟨p.1, maskedPairs_fst_mem hp, hcp⟩
    · exact mem_concatClasses.mp (hf2m c hc)
  · intro p hp
    have h1 := minimaPhase_count_ge hmin p hp
    have h2 : countIn out p.1 = countIn out2 p.1 := hperm.countP_eq _
    rw [hf2e, countIn_append] at h2
    have h0 : countIn [] p.1 = 0 := rfl
    rw [h0] at h1
    omega
  · -- when the minima sum equals the length, the fill loop runs zero
    -- times and the counts are exactly those drawn by the minima phase
    intro hfull target hdisj
    have hf2nil : f2 = [] := by
      have hl0 : f2.length = 0 := by omega
      exact List.length_eq_zero.mp hl0
    have hexact := minimaPhase_count_exact hmin hdisj
    have h2 : countIn out target = countIn out2 target := hperm.countP_eq _
    rw [hf2e, hf2nil, List.append_nil] at h2
    rw [h2, hexact]
    have h0 : countIn [] target = 0 := rfl
    rw [h0, Nat.zero_add]

/-! ### Which errors each phase can produce -/

theorem randomRune_err {set : List Char} {g : Entropy} {k : Nat} {e : GenError}
    (h : randomRune set g k = .error e) :
    e = .emptyCharacterSet ∨ e = .entropyFailure := by
  unfold randomRune at h
  split at h
  · cases h
    exact Or.inl rfl
  · split at h
    · cases h
      exact Or.inr rfl
    · exact absurd h (by simp)

theorem appendRandom_err {set : List Char} {g : Entropy} :
    ∀ {n : Nat} {out : List Char} {k : Nat} {e : GenError},
      appendRandom set n out g k = .error e →
      e = .emptyCharacterSet ∨ e = .entropyFailure := by
  intro n
  induction n with
  | zero =>
    intro out k e h
    exact absurd h (by simp [appendRandom])
  | succ m ih =>
    intro out k e h
    unfold appendRandom at h
    split at h
    · rename_i e1 hr
      cases h
      exact randomRune_err hr
    · exact ih h

theorem minimaPhase_err {g : Entropy} :
    ∀ {pairs : List (List Char × Int)} {out : List Char} {k : Nat}
      {e : GenError}, minimaPhase pairs out g k = .error e →
      e = .emptyCharacterSet ∨ e = .entropyFailure := by
  intro pairs
  induction pairs with
  | nil =>
    intro out k e h
    exact absurd h (by simp [minimaPhase])
  | cons q rest ih =>
    intro out k e h
    obtain ⟨s, m⟩ := q
    unfold minimaPhase at h
    split at h
    · rename_i e1 hr
      cases h
      exact appendRandom_err hr
    · exact ih h

theorem generateGeneric_err {o : Options} {g : Entropy} {k : Nat}
    {e : GenError} (h : generateGeneric o g k = .err e) :
    (e = .lengthNotPositive ∧ o.length ≤ 0) ∨
    collectClassesAndValidate o = .error e ∨
    (e = .minimaExceedLength
        ((maskedMins o).foldl (fun a v => a + v) 0) o.length ∧
      (maskedMins o).foldl (fun a v => a + v) 0 > o.length) ∨
    e = .emptyCharacterSet ∨ e = .entropyFailure := by
  unfold generateGeneric at h
  split at h
  · cases h
    rename_i hle
    exact Or.inl ⟨rfl, hle⟩
  split at h
  · rename_i e1 heq
    cases h
    exact Or.inr (Or.inl heq)
  rename_i classSets minima heq
  obtain ⟨hS, hM, _, _, _, _, _, _⟩ := collect_ok_elim heq
  subst hS
  subst hM
  split at h
  · rename_i hgt
    cases h
    exact Or.inr (Or.inr (Or.inl ⟨rfl, hgt⟩))
  split at h
  · rename_i e1 hm
    cases h
    exact Or.inr (Or.inr (Or.inr (minimaPhase_err hm)))
  split at h
  · rename_i e1 hf
    cases h
    exact Or.inr (Or.inr (Or.inr (appendRandom_err hf)))
  split at h
  · exact absurd h (by simp)
  · exact absurd h (by simp)

theorem generateGeneric_err_of_collect {o : Options} {g : Entropy} {k : Nat}
    {e : GenError} (hlen : ¬o.length ≤ 0)
    (hcol : collectClassesAndValidate o = .error e) :
    generateGeneric o g k = .err e := by
  unfold generateGeneric
  rw [if_neg hlen]
  simp only [hcol]

theorem generateGeneric_minimaExceed {o : Options} (g : Entropy) (k : Nat)
    (hlen : ¬o.length ≤ 0)
    (hcol : collectClassesAndValidate o = .ok (maskedSets o, maskedMins o))
    (hgt : (maskedMins o).foldl (fun a v => a + v) 0 > o.length) :
    generateGeneric o g k =
      .err (.minimaExceedLength
        ((maskedMins o).foldl (fun a v => a + v) 0) o.length) := by
  unfold generateGeneric
  rw [if_neg hlen]
  simp only [hcol]
  rw [if_pos hgt]

/-! ### Totality under a never-failing entropy source -/

theorem concatClasses_ne_nil {S : List (List Char)} (hS : S.length ≠ 0)
    (hmem : ∀ s ∈ S, s.length ≠ 0) : (concatClasses S).length ≠ 0 := by
  rcases S with _ | ⟨s0, rest⟩
  · simp at hS
  · rw [concatClasses_eq_flatten]
    simp only [List.flatten_cons, List.length_append]
    have := hmem s0 (List.mem_cons_self _ _)
    omega

theorem generateGeneric_total {o : Options} {g : Entropy} (k : Nat)
    (hg : ∀ j, (g j).isSome) (hlen : ¬o.length ≤ 0)
    (hcol : collectClassesAndValidate o = .ok (maskedSets o, maskedMins o))
    (hsum : ¬(maskedMins o).foldl (fun a v => a + v) 0 > o.length) :
    ∃ out k', generateGeneric o g k = .ok out k' := by
  obtain ⟨_, _, _, _, _, _, hSne, _⟩ := collect_ok_elim hcol
  obtain ⟨out1, k1, h1⟩ := minimaPhase_total hg (maskedPairs o)
    (fun p hp => Or.inl (maskedSets_ne_nil (maskedPairs_fst_mem hp))) [] k
  have hall : (concatClasses (maskedSets o)).length ≠ 0 :=
    concatClasses_ne_nil hSne (fun s hs => maskedSets_ne_nil hs)
  obtain ⟨out2, k2, h2⟩ :=
    appendRandom_total hg hall (o.length.toNat - out1.length) out1 k1
  obtain ⟨out3, k3, h3⟩ := shuffleRunes_total hg out2 k2
  refine ⟨out3, k3, ?_⟩
  unfold generateGeneric
  rw [if_neg hlen]
  simp only [hcol]
  rw [if_neg hsum, masked_zip]
  simp only [h1, h2, h3]

/-! ### Evaluating `condSum` on the four class targets -/

theorem allP_lower_lower : ∀ c ∈ lowerChars, c ∈ lowerChars := fun _ h => h
theorem allP_upper_upper : ∀ c ∈ upperChars, c ∈ upperChars := fun _ h => h
theorem allP_number_number : ∀ c ∈ numberChars, c ∈ numberChars := fun _ h => h
theorem allP_symbol_symbol : ∀ c ∈ symbolChars, c ∈ symbolChars := fun _ h => h
theorem nallP_upper_lower : ¬∀ c ∈ upperChars, c ∈ lowerChars := by decide
theorem nallP_number_lower : ¬∀ c ∈ numberChars, c ∈ lowerChars := by decide
theorem nallP_symbol_lower : ¬∀ c ∈ symbolChars, c ∈ lowerChars := by decide
theorem nallP_lower_upper : ¬∀ c ∈ lowerChars, c ∈ upperChars := by decide
theorem nallP_number_upper : ¬∀ c ∈ numberChars, c ∈ upperChars := by decide
theorem nallP_symbol_upper : ¬∀ c ∈ symbolChars, c ∈ upperChars := by decide
theorem nallP_lower_number : ¬∀ c ∈ lowerChars, c ∈ numberChars := by decide
theorem nallP_upper_number : ¬∀ c ∈ upperChars, c ∈ numberChars := by decide
theorem nallP_symbol_number : ¬∀ c ∈ symbolChars, c ∈ numberChars := by decide
theorem nallP_lower_symbol : ¬∀ c ∈ lowerChars, c ∈ symbolChars := by decide
theorem nallP_upper_symbol : ¬∀ c ∈ upperChars, c ∈ symbolChars := by decide
theorem nallP_number_symbol : ¬∀ c ∈ numberChars, c ∈ symbolChars := by decide

theorem condSum_lower (o : Options) : condSum lowerChars (maskedPairs o) =
    if o.useLower then o.minLower.toNat else 0 := by
  unfold condSum maskedPairs
  cases hl : o.useLower <;> cases hu : o.useUpper <;>
    cases hn : o.useNumber <;> cases hs : o.useSymbol <;>
    simp [allP_lower_lower, nallP_upper_lower, nallP_number_lower,
      nallP_symbol_lower]

theorem condSum_upper (o : Options) : condSum upperChars (maskedPairs o) =
    if o.useUpper then o.minUpper.toNat else 0 := by
  unfold condSum maskedPairs
  cases hl : o.useLower <;> cases hu : o.useUpper <;>
    cases hn : o.useNumber <;> cases hs : o.useSymbol <;>
    simp [nallP_lower_upper, allP_upper_upper, nallP_number_upper,
      nallP_symbol_upper]

theorem condSum_number (o : Options) : condSum numberChars (maskedPairs o) =
    if o.useNumber then o.minNumber.toNat else 0 := by
  unfold condSum maskedPairs
  cases hl : o.useLower <;> cases hu : o.useUpper <;>
    cases hn : o.useNumber <;> cases hs : o.useSymbol <;>
    simp [nallP_lower_number, nallP_upper_number, allP_number_number,
      nallP_symbol_number]

theorem condSum_symbol (o : Options) : condSum symbolChars (maskedPairs o) =
    if o.useSymbol then o.minSymbol.toNat else 0 := by
  unfold condSum maskedPairs
  cases hl : o.useLower <;> cases hu : o.useUpper <;>
    cases hn : o.useNumber <;> cases hs : o.useSymbol <;>
    simp [nallP_lower_symbol, nallP_upper_symbol, nallP_number_symbol,
      allP_symbol_symbol]

theorem pairs_split_lower (o : Options) : ∀ p ∈ maskedPairs o,
    (∀ c ∈ p.1, c ∈ lowerChars) ∨ (∀ c ∈ p.1, c ∉ lowerChars) := by
  intro p hp
  rcases maskedSets_mem (maskedPairs_fst_mem hp) with ⟨_, h⟩ | ⟨_, h⟩ | ⟨_, h⟩ | ⟨_, h⟩ <;> rw [h]
  · exact Or.inl lower_sub_lower
  · exact Or.inr upper_not_lower
  · exact Or.inr number_not_lower
  · exact Or.inr symbol_not_lower

theorem pairs_split_upper (o : Options) : ∀ p ∈ maskedPairs o,
    (∀ c ∈ p.1, c ∈ upperChars) ∨ (∀ c ∈ p.1, c ∉ upperChars) := by
  intro p hp
  rcases maskedSets_mem (maskedPairs_fst_mem hp) with ⟨_, h⟩ | ⟨_, h⟩ | ⟨_, h⟩ | ⟨_, h⟩ <;> rw [h]
  · exact Or.inr lower_not_upper
  · exact Or.inl (fun _ hc => hc)
  · exact Or.inr number_not_upper
  · exact Or.inr symbol_not_upper

theorem pairs_split_number (o : Options) : ∀ p ∈ maskedPairs o,
    (∀ c ∈ p.1, c ∈ numberChars) ∨ (∀ c ∈ p.1, c ∉ numberChars) := by
  intro p hp
  rcases maskedSets_mem (maskedPairs_fst_mem hp) with ⟨_, h⟩ | ⟨_, h⟩ | ⟨_, h⟩ | ⟨_, h⟩ <;> rw [h]
  · exact Or.inr lower_not_number
  · exact Or.inr upper_not_number
  · exact Or.inl (fun _ hc => hc)
  · exact Or.inr symbol_not_number

theorem pairs_split_symbol (o : Options) : ∀ p ∈ maskedPairs o,
    (∀ c ∈ p.1, c ∈ symbolChars) ∨ (∀ c ∈ p.1, c ∉ symbolChars) := by
  intro p hp
  rcases maskedSets_mem (maskedPairs_fst_mem hp) with ⟨_, h⟩ | ⟨_, h⟩ | ⟨_, h⟩ | ⟨_, h⟩ <;> rw [h]
  · exact Or.inr lower_not_symbol
  · exact Or.inr upper_not_symbol
  · exact Or.inr number_not_symbol
  · exact Or.inl (fun _ hc => hc)

/-! ### The app-key segment formatter -/

theorem natMod_int (i t : Nat) : ((i : Int) % (t : Int) = 0) ↔ i % t = 0 := by
  omega

theorem dashLoop_no_dash {t : Nat} :
    ∀ (a b : List Char) (i : Nat),
      (∀ d, d < a.length → ¬(0 < i + d ∧ (i + d) % t = 0)) →
      dashLoop (a ++ b) (t : Int) i = a ++ dashLoop b (t : Int) (i + a.length) := by
  intro a
  induction a with
  | nil =>
    intro b i _
    simp
  | cons x a ih =>
    intro b i h
    have h0 : ¬(0 < i ∧ (i : Int) % (t : Int) = 0) := by
      have := h 0 (by simp)
      rw [natMod_int]
      simpa using this
    show dashLoop (x :: (a ++ b)) (t : Int) i = _
    unfold dashLoop
    rw [if_neg h0]
    rw [ih b (i + 1) (fun d hd => by
      have := h (d + 1) (by simpa using Nat.succ_lt_succ hd)
      intro hc
      exact this ⟨by omega, by rw [show i + (d + 1) = i + 1 + d by omega]; exact hc.2⟩)]
    simp only [List.cons_append, List.singleton_append, List.length_cons,
      List.nil_append]
    rw [show i + 1 + a.length = i + (a.length + 1) by omega]
    cases b <;> rfl

theorem dashLoop_chunk {t : Nat} (ht : 0 < t) (ch rest : List Char) (n : Nat)
    (hch : ch.length = t) (hn : 1 ≤ n) :
    dashLoop (ch ++ rest) (t : Int) (n * t) =
      '-' :: (ch ++ dashLoop rest (t : Int) (n * t + t)) := by
  cases ch with
  | nil =>
    rw [List.length_nil] at hch
    omega
  | cons x ch' =>
    have hpos : 0 < n * t := Nat.mul_pos hn ht
    have hmod : ((n * t : Nat) : Int) % (t : Int) = 0 := by
      rw [natMod_int]
      simp [Nat.mul_mod_left]
    show dashLoop (x :: (ch' ++ rest)) (t : Int) (n * t) = _
    unfold dashLoop
    rw [if_pos ⟨hpos, hmod⟩]
    rw [dashLoop_no_dash ch' rest (n * t + 1) (fun d hd => by
      intro hc
      have hlt : 1 + d < t := by
        simp only [List.length_cons] at hch
        omega
      have : (n * t + 1 + d) % t = (1 + d) % t := by
        rw [show n * t + 1 + d = (1 + d) + n * t by omega]
        exact Nat.add_mul_mod_self_right _ _ _
      rw [this, Nat.mod_eq_of_lt hlt] at hc
      omega)]
    simp only [List.cons_append, List.singleton_append, List.append_assoc,
      List.nil_append]
    have hlen : n * t + 1 + ch'.length = n * t + t := by
      simp only [List.length_cons] at hch
      omega
    rw [hlen]
    cases rest <;> rfl

theorem dashLoop_first_chunk {t : Nat} (ch rest : List Char)
    (hch : ch.length = t) :
    dashLoop (ch ++ rest) (t : Int) 0 = ch ++ dashLoop rest (t : Int) t := by
  rw [dashLoop_no_dash ch rest 0 (fun d hd => by
    intro hc
    rcases Nat.eq_zero_or_pos d with hd0 | hd0
    · subst hd0
      exact absurd hc.1 (by omega)
    · have hlt : d < t := by omega
      rw [Nat.zero_add, Nat.mod_eq_of_lt hlt] at hc
      omega)]
  rw [Nat.zero_add, hch]

/-- Groups after the first, each rendered with its leading dash. -/
def dashAll : List (List Char) → List Char
  | [] => []
  | c :: rest => '-' :: (c ++ dashAll rest)

theorem joinWithDash_eq_dashAll :
    ∀ (c : List Char) (cs : List (List Char)),
      joinWithDash (c :: cs) = c ++ dashAll cs := by
  intro c cs
  induction cs generalizing c with
  | nil => simp [joinWithDash, dashAll]
  | cons c2 cs ih =>
    show c ++ '-' :: joinWithDash (c2 :: cs) = _
    rw [ih c2]
    simp [dashAll]

theorem dashLoop_chunks {t : Nat} (ht : 0 < t) :
    ∀ (s : Nat) (core : List Char) (n : Nat), 1 ≤ n →
      core.length = s * t →
      dashLoop core (t : Int) (n * t) = dashAll (chunkList core s t) := by
  intro s
  induction s with
  | zero =>
    intro core n _ hlen
    have : core = [] := List.length_eq_zero.mp (by simpa using hlen)
    subst this
    rfl
  | succ s ih =>
    intro core n hn hlen
    have htle : t ≤ core.length := by
      rw [hlen]
      calc t = 1 * t := (Nat.one_mul t).symm
        _ ≤ (s + 1) * t := Nat.mul_le_mul_right t (by omega)
    have htake : (core.take t).length = t := by
      rw [List.length_take]
      omega
    have hdrop : (core.drop t).length = s * t := by
      rw [List.length_drop, hlen]
      calc (s + 1) * t - t = s * t + t - t := by ring_nf
        _ = s * t := by omega
    have h1 : dashLoop core (t : Int) (n * t) =
        '-' :: (core.take t ++ dashLoop (core.drop t) (t : Int) (n * t + t)) := by
      conv_lhs => rw [← List.take_append_drop t core]
      exact dashLoop_chunk ht _ _ n htake hn
    have h2 : n * t + t = (n + 1) * t := by ring
    rw [h1, h2, ih (core.drop t) (n + 1) (by omega) hdrop]
    rfl

theorem dashLoop_eq_joinWithDash {s t : Nat} (hs : 1 ≤ s) (ht : 0 < t)
    {core : List Char} (hlen : core.length = s * t) :
    dashLoop core (t : Int) 0 = joinWithDash (chunkList core s t) := by
  obtain ⟨s', rfl⟩ : ∃ s', s = s' + 1 := ⟨s - 1, by omega⟩
  have htle : t ≤ core.length := by
    rw [hlen]
    calc t = 1 * t := (Nat.one_mul t).symm
      _ ≤ (s' + 1) * t := Nat.mul_le_mul_right t (by omega)
  have htake : (core.take t).length = t := by
    rw [List.length_take]
    omega
  have hdrop : (core.drop t).length = s' * t := by
    rw [List.length_drop, hlen]
    calc (s' + 1) * t - t = s' * t + t - t := by ring_nf
      _ = s' * t := by omega
  have h1 : dashLoop core (t : Int) 0 =
      core.take t ++ dashLoop (core.drop t) (t : Int) t := by
    conv_lhs => rw [← List.take_append_drop t core]
    exact dashLoop_first_chunk _ _ htake
  have h2 : dashLoop (core.drop t) (t : Int) t =
      dashAll (chunkList (core.drop t) s' t) := by
    have := dashLoop_chunks ht s' (core.drop t) 1 (by omega) hdrop
    rw [Nat.one_mul] at this
    exact this
  rw [h1, h2]
  show _ = joinWithDash (core.take t :: chunkList (core.drop t) s' t)
  rw [joinWithDash_eq_dashAll]

theorem chunkList_shape {t : Nat} :
    ∀ (s : Nat) (core : List Char), core.length = s * t →
      (chunkList core s t).length = s ∧
      ∀ ch ∈ chunkList core s t, ch.length = t := by
  intro s
  induction s with
  | zero =>
    intro core _
    exact ⟨rfl, fun ch hch => absurd hch (List.not_mem_nil ch)⟩
  | succ s ih =>
    intro core hlen
    have htle : t ≤ core.length := by
      rw [hlen]
      calc t = 1 * t := (Nat.one_mul t).symm
        _ ≤ (s + 1) * t := Nat.mul_le_mul_right t (by omega)
    have hdrop : (core.drop t).length = s * t := by
      rw [List.length_drop, hlen]
      calc (s + 1) * t - t = s * t + t - t := by ring_nf
        _ = s * t := by omega
    obtain ⟨ihl, ihm⟩ := ih (core.drop t) hdrop
    refine ⟨by simp [chunkList, ihl], ?_⟩
    intro ch hch
    rcases List.mem_cons.mp hch with hch | hch
    · subst hch
      rw [List.length_take]
      omega
    · exact ihm ch hch

theorem dashAll_length {t : Nat} :
    ∀ (cs : List (List Char)), (∀ ch ∈ cs, ch.length = t) →
      (dashAll cs).length = cs.length * (t + 1) := by
  intro cs
  induction cs with
  | nil =>
    intro _
    simp [dashAll]
  | cons c cs ih =>
    intro h
    show ('-' :: (c ++ dashAll cs)).length = _
    simp only [List.length_cons, List.length_append]
    rw [ih (fun ch hch => h ch (List.mem_cons_of_mem _ hch)),
      h c (List.mem_cons_self _ _)]
    ring

theorem joinWithDash_length {s t : Nat} (hs : 1 ≤ s)
    {cs : List (List Char)} (hlen : cs.length = s)
    (hch : ∀ ch ∈ cs, ch.length = t) :
    (joinWithDash cs).length = s * t + (s - 1) := by
  cases cs with
  | nil => simp at hlen; omega
  | cons c cs' =>
    rw [joinWithDash_eq_dashAll, List.length_append,
      dashAll_length cs' (fun ch h => hch ch (List.mem_cons_of_mem _ h)),
      hch c (List.mem_cons_self _ _)]
    simp only [List.length_cons] at hlen
    subst hlen
    simp only [Nat.add_sub_cancel]
    ring

theorem toNat_mul_pos {a b : Int} (ha : 0 < a) (hb : 0 < b) :
    (a * b).toNat = a.toNat * b.toNat := by
  obtain ⟨m, rfl⟩ := Int.eq_ofNat_of_zero_le ha.le
  obtain ⟨n, rfl⟩ := Int.eq_ofNat_of_zero_le hb.le
  rw [← Nat.cast_mul, Int.toNat_ofNat, Int.toNat_ofNat, Int.toNat_ofNat]

/-- The derived options `generateAppKey` hands to the generic branch touch
only `length` and `format`, so pool construction is unchanged. -/
theorem collect_derived (o : Options) (L : Int) (F : Format) :
    collectClassesAndValidate { o with length := L, format := F } =
      collectClassesAndValidate o := rfl

theorem maskedSets_derived (o : Options) (L : Int) (F : Format) :
    maskedSets { o with length := L, format := F } = maskedSets o := rfl

theorem maskedMins_derived (o : Options) (L : Int) (F : Format) :
    maskedMins { o with length := L, format := F } = maskedMins o := rfl

theorem maskedPairs_derived (o : Options) (L : Int) (F : Format) :
    maskedPairs { o with length := L, format := F } = maskedPairs o := rfl

theorem generateAppKey_ok {o : Options} {g : Entropy} {k : Nat}
    {out : List Char} {k' : Nat} (h : generateAppKey o g k = .ok out k') :
    0 < o.segments ∧ 0 < o.segmentLength ∧
    ∃ core, generateGeneric
        { o with length := o.segments * o.segmentLength,
                 format := FormatGeneric } g k = .ok core k' ∧
      core.length = o.segments.toNat * o.segmentLength.toNat ∧
      out = joinWithDash
        (chunkList core o.segments.toNat o.segmentLength.toNat) := by
  unfold generateAppKey at h
  split at h
  · exact absurd h (by simp)
  rename_i hs
  split at h
  · exact absurd h (by simp)
  rename_i ht
  split at h
  · exact absurd h (by simp)
  · exact absurd h (by simp)
  rename_i core k1 hcore
  cases h
  have hsp : 0 < o.segments := by omega
  have htp : 0 < o.segmentLength := by omega
  obtain ⟨_, _, hlen, _, _, _⟩ := generateGeneric_ok hcore
  have hlen' : core.length = o.segments.toNat * o.segmentLength.toNat := by
    rw [hlen]
    exact toNat_mul_pos hsp htp
  refine ⟨hsp, htp, core, hcore, hlen', ?_⟩
  have hseg : o.segmentLength = ((o.segmentLength.toNat : Nat) : Int) :=
    (Int.toNat_of_nonneg htp.le).symm
  rw [hseg]
  exact dashLoop_eq_joinWithDash (by omega) (by omega) hlen'

theorem generateAppKey_eq {o : Options} (g : Entropy) (k : Nat)
    (hs : 0 < o.segments) (ht : 0 < o.segmentLength) :
    generateAppKey o g k =
      match generateGeneric
          { o with length := o.segments * o.segmentLength,
                   format := FormatGeneric } g k with
      | .ok core k1 => .ok (joinWithDash
          (chunkList core o.segments.toNat o.segmentLength.toNat)) k1
      | .err e => .err e
      | .crash => .crash := by
  unfold generateAppKey
  rw [if_neg (by omega), if_neg (by omega)]
  cases hger : generateGeneric
      { o with length := o.segments * o.segmentLength,
               format := FormatGeneric } g k with
  | err e => rfl
  | crash => rfl
  | ok core k1 =>
    obtain ⟨_, _, hlen, _, _, _⟩ := generateGeneric_ok hger
    have hlen' : core.length = o.segments.toNat * o.segmentLength.toNat := by
      rw [hlen]
      exact toNat_mul_pos hs ht
    have hseg : o.segmentLength = ((o.segmentLength.toNat : Nat) : Int) :=
      (Int.toNat_of_nonneg ht.le).symm
    have hdash : dashLoop core o.segmentLength 0 =
        joinWithDash (chunkList core o.segments.toNat o.segmentLength.toNat) := by
      conv_lhs => rw [hseg]
      exact dashLoop_eq_joinWithDash (by omega) (by omega) hlen'
    show GenRes.ok (dashLoop core o.segmentLength 0) k1 = _
    rw [hdash]

theorem generateAppKey_err_segments {o : Options} (g : Entropy) (k : Nat)
    (hs : o.segments ≤ 0) :
    generateAppKey o g k = .err .segmentsNotPositive := by
  unfold generateAppKey
  rw [if_pos hs]

theorem generateAppKey_err_segmentLength {o : Options} (g : Entropy) (k : Nat)
    (hs : ¬o.segments ≤ 0) (ht : o.segmentLength ≤ 0) :
    generateAppKey o g k = .err .segmentLengthNotPositive := by
  unfold generateAppKey
  rw [if_neg hs, if_pos ht]

theorem generateAppKey_err_of_generic {o : Options} {g : Entropy} {k : Nat}
    {e : GenError} (hs : ¬o.segments ≤ 0) (ht : ¬o.segmentLength ≤ 0)
    (hger : generateGeneric
      { o with length := o.segments * o.segmentLength,
               format := FormatGeneric } g k = .err e) :
    generateAppKey o g k = .err e := by
  unfold generateAppKey
  rw [if_neg hs, if_neg ht]
  simp only [hger]

/-! ### The UUID v4 builder -/

set_option maxRecDepth 8000

theorem readBytes_total {g : Entropy} (hg : ∀ j, (g j).isSome) :
    ∀ (n k : Nat), ∃ bs, readBytes g k n = some bs ∧ bs.length = n ∧
      ∀ b ∈ bs, b < 256 := by
  intro n
  induction n with
  | zero =>
    intro k
    exact ⟨[], rfl, rfl, by simp⟩
  | succ m ih =>
    intro k
    rcases hv : g k with _ | v
    · have := hg k
      rw [hv] at this
      simp at this
    · obtain ⟨bs, hbs, hlen, hmem⟩ := ih (k + 1)
      refine ⟨(v % 256) :: bs, ?_, by simp [hlen], ?_⟩
      · unfold readBytes
        rw [hv, hbs]
        rfl
      · intro b hb
        rcases List.mem_cons.mp hb with hb | hb
        · subst hb
          exact Nat.mod_lt v (by omega)
        · exact hmem b hb

theorem hex_mem : ∀ y, y < 16 → hexdigits.getD y ' ' ∈ hexdigits := by decide
theorem hex_ne_dash : ∀ y, y < 16 → hexdigits.getD y ' ' ≠ '-' := by decide
theorem shift_lt : ∀ x, x < 256 → x >>> 4 < 16 := by decide
theorem and15_lt : ∀ x, x < 256 → x &&& 15 < 16 := by decide
theorem version_shift : ∀ x, x < 256 → ((x &&& 15) ||| 64) >>> 4 = 4 := by
  decide
theorem version_lt : ∀ x, x < 256 → ((x &&& 15) ||| 64) < 256 := by decide
theorem variant_shift : ∀ x, x < 256 →
    (((x &&& 63) ||| 128) >>> 4 = 8 ∨ ((x &&& 63) ||| 128) >>> 4 = 9 ∨
     ((x &&& 63) ||| 128) >>> 4 = 10 ∨ ((x &&& 63) ||| 128) >>> 4 = 11) := by
  decide
theorem variant_lt : ∀ x, x < 256 → ((x &&& 63) ||| 128) < 256 := by decide
theorem dash_not_hex : '-' ∉ hexdigits := by decide

theorem generateUUIDv4_spec {g : Entropy} (k : Nat) (hg : ∀ j, (g j).isSome) :
    ∃ u, generateUUIDv4 g k = .ok u (k + 16) ∧
      u.length = 36 ∧
      u.getD 8 ' ' = '-' ∧ u.getD 13 ' ' = '-' ∧
      u.getD 18 ' ' = '-' ∧ u.getD 23 ' ' = '-' ∧
      u.getD 14 ' ' = '4' ∧
      (u.getD 19 ' ' = '8' ∨ u.getD 19 ' ' = '9' ∨
       u.getD 19 ' ' = 'a' ∨ u.getD 19 ' ' = 'b') ∧
      (∀ p, p < 36 → p ≠ 8 → p ≠ 13 → p ≠ 18 → p ≠ 23 →
        u.getD p ' ' ∈ hexdigits) := by
  obtain ⟨bs, hbs, hlen, hmem⟩ := readBytes_total hg 16 k
  rcases bs with _|⟨b0,_|⟨b1,_|⟨b2,_|⟨b3,_|⟨b4,_|⟨b5,_|⟨b6,_|⟨b7,_|⟨b8,_|⟨b9,_|⟨b10,_|⟨b11,_|⟨b12,_|⟨b13,_|⟨b14,_|⟨b15,rest⟩⟩⟩⟩⟩⟩⟩⟩⟩⟩⟩⟩⟩⟩⟩⟩
  all_goals try (exfalso; simp only [List.length_cons, List.length_nil] at hlen; omega)
  have hrest : rest = [] := by
    simp only [List.length_cons, List.length_nil] at hlen
    exact List.length_eq_zero.mp (by omega)
  subst hrest
  have hb0 : b0 < 256 := hmem b0 (by simp)
  have hb1 : b1 < 256 := hmem b1 (by simp)
  have hb2 : b2 < 256 := hmem b2 (by simp)
  have hb3 : b3 < 256 := hmem b3 (by simp)
  have hb4 : b4 < 256 := hmem b4 (by simp)
  have hb5 : b5 < 256 := hmem b5 (by simp)
  have hb6 : b6 < 256 := hmem b6 (by simp)
  have hb7 : b7 < 256 := hmem b7 (by simp)
  have hb8 : b8 < 256 := hmem b8 (by simp)
  have hb9 : b9 < 256 := hmem b9 (by simp)
  have hb10 : b10 < 256 := hmem b10 (by simp)
  have hb11 : b11 < 256 := hmem b11 (by simp)
  have hb12 : b12 < 256 := hmem b12 (by simp)
  have hb13 : b13 < 256 := hmem b13 (by simp)
  have hb14 : b14 < 256 := hmem b14 (by simp)
  have hb15 : b15 < 256 := hmem b15 (by simp)
  have hc6 : (b6 &&& 15) ||| 64 < 256 := version_lt b6 hb6
  have hc8 : (b8 &&& 63) ||| 128 < 256 := variant_lt b8 hb8
  refine ⟨[hexdigits.getD (b0 >>> 4) ' ', hexdigits.getD (b0 &&& 15) ' ',
    hexdigits.getD (b1 >>> 4) ' ', hexdigits.getD (b1 &&& 15) ' ',
    hexdigits.getD (b2 >>> 4) ' ', hexdigits.getD (b2 &&& 15) ' ',
    hexdigits.getD (b3 >>> 4) ' ', hexdigits.getD (b3 &&& 15) ' ', '-',
    hexdigits.getD (b4 >>> 4) ' ', hexdigits.getD (b4 &&& 15) ' ',
    hexdigits.getD (b5 >>> 4) ' ', hexdigits.getD (b5 &&& 15) ' ', '-',
    hexdigits.getD (((b6 &&& 15) ||| 64) >>> 4) ' ',
    hexdigits.getD (((b6 &&& 15) ||| 64) &&& 15) ' ',
    hexdigits.getD (b7 >>> 4) ' ', hexdigits.getD (b7 &&& 15) ' ', '-',
    hexdigits.getD (((b8 &&& 63) ||| 128) >>> 4) ' ',
    hexdigits.getD (((b8 &&& 63) ||| 128) &&& 15) ' ',
    hexdigits.getD (b9 >>> 4) ' ', hexdigits.getD (b9 &&& 15) ' ', '-',
    hexdigits.getD (b10 >>> 4) ' ', hexdigits.getD (b10 &&& 15) ' ',
    hexdigits.getD (b11 >>> 4) ' ', hexdigits.getD (b11 &&& 15) ' ',
    hexdigits.getD (b12 >>> 4) ' ', hexdigits.getD (b12 &&& 15) ' ',
    hexdigits.getD (b13 >>> 4) ' ', hexdigits.getD (b13 &&& 15) ' ',
    hexdigits.getD (b14 >>> 4) ' ', hexdigits.getD (b14 &&& 15) ' ',
    hexdigits.getD (b15 >>> 4) ' ', hexdigits.getD (b15 &&& 15) ' '],
    ?_, ?_, ?_, ?_, ?_, ?_, ?_, ?_, ?_⟩
  · unfold generateUUIDv4
    rw [hbs]
    rfl
  · rfl
  · rfl
  · rfl
  · rfl
  · rfl
  · simp only [List.getD_cons_succ, List.getD_cons_zero]
    rw [version_shift b6 hb6]
    rfl
  · simp only [List.getD_cons_succ, List.getD_cons_zero]
    rcases variant_shift b8 hb8 with h | h | h | h <;> rw [h]
    · exact Or.inl rfl
    · exact Or.inr (Or.inl rfl)
    · exact Or.inr (Or.inr (Or.inl rfl))
    · exact Or.inr (Or.inr (Or.inr rfl))
  · intro p hp h8 h13 h18 h23
    interval_cases p <;>
      simp only [List.getD_cons_succ, List.getD_cons_zero] <;>
      first
        | omega
        | exact hex_mem _ (shift_lt _ (by assumption))
        | exact hex_mem _ (and15_lt _ (by assumption))

/-! ### Further characterization lemmas used by the claims -/

theorem maskedMins_any_neg (o : Options) :
    (maskedMins o).any (fun v => decide (v < 0)) = true ↔
      ((o.useLower = true ∧ o.minLower < 0) ∨
       (o.useUpper = true ∧ o.minUpper < 0) ∨
       (o.useNumber = true ∧ o.minNumber < 0) ∨
       (o.useSymbol = true ∧ o.minSymbol < 0)) := by
  unfold maskedMins
  cases hl : o.useLower <;> cases hu : o.useUpper <;>
    cases hn : o.useNumber <;> cases hs : o.useSymbol <;> simp

theorem generateAppKey_err_elim {o : Options} {g : Entropy} {k : Nat}
    {e : GenError} (h : generateAppKey o g k = .err e) :
    (o.segments ≤ 0 ∧ e = .segmentsNotPositive) ∨
    (¬o.segments ≤ 0 ∧ o.segmentLength ≤ 0 ∧ e = .segmentLengthNotPositive) ∨
    (¬o.segments ≤ 0 ∧ ¬o.segmentLength ≤ 0 ∧
      generateGeneric
        { o with length := o.segments * o.segmentLength,
                 format := FormatGeneric } g k = .err e) := by
  unfold generateAppKey at h
  split at h
  · rename_i hs
    cases h
    exact Or.inl ⟨hs, rfl⟩
  rename_i hs
  split at h
  · rename_i ht
    cases h
    exact Or.inr (Or.inl ⟨hs, ht, rfl⟩)
  rename_i ht
  split at h
  · rename_i e1 hger
    cases h
    exact Or.inr (Or.inr ⟨hs, ht, hger⟩)
  · exact absurd h (by simp)
  · exact absurd h (by simp)

/-- Under the earlier checks, the generic branch reports `negativeMinimum`
exactly when some enabled class carries a negative minimum. -/
theorem generic_negIff {o : Options} (g : Entropy) (k : Nat)
    (hlen : 0 < o.length)
    (h1 : ¬(o.useLower = false ∧ 0 < o.minLower))
    (h2 : ¬(o.useUpper = false ∧ 0 < o.minUpper))
    (h3 : ¬(o.useNumber = false ∧ 0 < o.minNumber))
    (h4 : ¬(o.useSymbol = false ∧ 0 < o.minSymbol))
    (h5 : (maskedSets o).length ≠ 0) :
    (generateGeneric o g k = .err .negativeMinimum ↔
      ((o.useLower = true ∧ o.minLower < 0) ∨
       (o.useUpper = true ∧ o.minUpper < 0) ∨
       (o.useNumber = true ∧ o.minNumber < 0) ∨
       (o.useSymbol = true ∧ o.minSymbol < 0))) := by
  constructor
  · intro h
    rcases hany : (maskedMins o).any (fun v => decide (v < 0)) with _ | _
    · exfalso
      have hok := collect_ok_of_checks h1 h2 h3 h4 h5 hany
      rcases generateGeneric_err h with ⟨_, hc⟩ | hc | ⟨hc, _⟩ | hc | hc
      · omega
      · rw [hok] at hc
        exact absurd hc (by simp)
      · exact absurd hc (by simp)
      · exact absurd hc (by simp)
      · exact absurd hc (by simp)
    · exact (maskedMins_any_neg o).mp hany
  · intro hneg
    exact generateGeneric_err_of_collect (by omega)
      (collect_err_negative h1 h2 h3 h4 h5 ((maskedMins_any_neg o).mpr hneg))

/-- Under a validated configuration, the generic branch reports
`minimaExceedLength` exactly when the minima sum exceeds the length. -/
theorem generic_minimaIff {o : Options} (g : Entropy) (k : Nat)
    (hlen : 0 < o.length)
    (hcol : collectClassesAndValidate o = .ok (maskedSets o, maskedMins o)) :
    ((∃ a b, generateGeneric o g k = .err (.minimaExceedLength a b)) ↔
      (maskedMins o).foldl (fun a v => a + v) 0 > o.length) := by
  constructor
  · rintro ⟨a, b, h⟩
    rcases generateGeneric_err h with ⟨hc, _⟩ | hc | ⟨_, hgt⟩ | hc | hc
    · exact absurd hc (by simp)
    · rw [hcol] at hc
      exact absurd hc (by simp)
    · exact hgt
    · exact absurd hc (by simp)
    · exact absurd hc (by simp)
  · intro hgt
    exact ⟨_, _, generateGeneric_minimaExceed g k (by omega) hcol hgt⟩

/-- When the minima sum is exactly the length, generic generation succeeds
(under a never-failing entropy source) and each enabled class contributes
exactly its minimum. -/
theorem generic_exact {o : Options} (g : Entropy) (k : Nat)
    (hlen : 0 < o.length)
    (hcol : collectClassesAndValidate o = .ok (maskedSets o, maskedMins o))
    (heq : (maskedMins o).foldl (fun a v => a + v) 0 = o.length)
    (hg : ∀ j, (g j).isSome) :
    ∃ out k', generateGeneric o g k = .ok out k' ∧
      (o.useLower = true → countIn out lowerChars = o.minLower.toNat) ∧
      (o.useUpper = true → countIn out upperChars = o.minUpper.toNat) ∧
      (o.useNumber = true → countIn out numberChars = o.minNumber.toNat) ∧
      (o.useSymbol = true → countIn out symbolChars = o.minSymbol.toNat) := by
  obtain ⟨out, k', h⟩ := generateGeneric_total k hg (by omega) hcol (by omega)
  obtain ⟨_, _, _, _, _, hexact⟩ := generateGeneric_ok h
  obtain ⟨_, _, _, _, _, _, _, hnn⟩ := collect_ok_elim hcol
  have hms : minSum (maskedPairs o) = o.length.toNat := by
    have h1 : ((minSum (maskedPairs o) : Int)) =
        (maskedMins o).foldl (fun a v => a + v) 0 := by
      rw [minSum_eq]
      exact toNat_sum_of_nonneg _ hnn
    omega
  refine ⟨out, k', h, ?_, ?_, ?_, ?_⟩
  · intro hl
    rw [hexact hms lowerChars (pairs_split_lower o), condSum_lower, if_pos hl]
  · intro hu
    rw [hexact hms upperChars (pairs_split_upper o), condSum_upper, if_pos hu]
  · intro hn
    rw [hexact hms numberChars (pairs_split_number o), condSum_number,
      if_pos hn]
  · intro hs
    rw [hexact hms symbolChars (pairs_split_symbol o), condSum_symbol,
      if_pos hs]

/-- An output character of the generic branch lies in a toggled-on class. -/
theorem mem_enabled_of_pool {o : Options} {c : Char}
    (hmem : ∃ s ∈ maskedSets o, c ∈ s) :
    (o.useLower = true ∧ c ∈ lowerChars) ∨
    (o.useUpper = true ∧ c ∈ upperChars) ∨
    (o.useNumber = true ∧ c ∈ numberChars) ∨
    (o.useSymbol = true ∧ c ∈ symbolChars) := by
  obtain ⟨s, hs, hcs⟩ := hmem
  rcases maskedSets_mem hs with ⟨hf, h⟩ | ⟨hf, h⟩ | ⟨hf, h⟩ | ⟨hf, h⟩ <;>
    subst h
  · exact Or.inl ⟨hf, hcs⟩
  · exact Or.inr (Or.inl ⟨hf, hcs⟩)
  · exact Or.inr (Or.inr (Or.inl ⟨hf, hcs⟩))
  · exact Or.inr (Or.inr (Or.inr ⟨hf, hcs⟩))

theorem not_lower_of_disabled {o : Options} {c : Char}
    (hd : o.useLower = false)
    (h : (o.useLower = true ∧ c ∈ lowerChars) ∨
      (o.useUpper = true ∧ c ∈ upperChars) ∨
      (o.useNumber = true ∧ c ∈ numberChars) ∨
      (o.useSymbol = true ∧ c ∈ symbolChars)) : c ∉ lowerChars := by
  rcases h with ⟨hf, _⟩ | ⟨_, hc⟩ | ⟨_, hc⟩ | ⟨_, hc⟩
  · rw [hd] at hf
    exact absurd hf (by simp)
  · exact upper_not_lower c hc
  · exact number_not_lower c hc
  · exact symbol_not_lower c hc

theorem not_upper_of_disabled {o : Options} {c : Char}
    (hd : o.useUpper = false)
    (h : (o.useLower = true ∧ c ∈ lowerChars) ∨
      (o.useUpper = true ∧ c ∈ upperChars) ∨
      (o.useNumber = true ∧ c ∈ numberChars) ∨
      (o.useSymbol = true ∧ c ∈ symbolChars)) : c ∉ upperChars := by
  rcases h with ⟨_, hc⟩ | ⟨hf, _⟩ | ⟨_, hc⟩ | ⟨_, hc⟩
  · exact lower_not_upper c hc
  · rw [hd] at hf
    exact absurd hf (by simp)
  · exact number_not_upper c hc
  · exact symbol_not_upper c hc

theorem not_number_of_disabled {o : Options} {c : Char}
    (hd : o.useNumber = false)
    (h : (o.useLower = true ∧ c ∈ lowerChars) ∨
      (o.useUpper = true ∧ c ∈ upperChars) ∨
      (o.useNumber = true ∧ c ∈ numberChars) ∨
      (o.useSymbol = true ∧ c ∈ symbolChars)) : c ∉ numberChars := by
  rcases h with ⟨_, hc⟩ | ⟨_, hc⟩ | ⟨hf, _⟩ | ⟨_, hc⟩
  · exact lower_not_number c hc
  · exact upper_not_number c hc
  · rw [hd] at hf
    exact absurd hf (by simp)
  · exact symbol_not_number c hc

theorem not_symbol_of_disabled {o : Options} {c : Char}
    (hd : o.useSymbol = false)
    (h : (o.useLower = true ∧ c ∈ lowerChars) ∨
      (o.useUpper = true ∧ c ∈ upperChars) ∨
      (o.useNumber = true ∧ c ∈ numberChars) ∨
      (o.useSymbol = true ∧ c ∈ symbolChars)) : c ∉ symbolChars := by
  rcases h with ⟨_, hc⟩ | ⟨_, hc⟩ | ⟨_, hc⟩ | ⟨hf, _⟩
  · exact lower_not_symbol c hc
  · exact upper_not_symbol c hc
  · exact number_not_symbol c hc
  · rw [hd] at hf
    exact absurd hf (by simp)

/-! ### The claims -/

/-- C1: for every configuration that passes validation, a successful
`Generate` returns an output whose length equals the configured length
when the format is generic, and `segments*segmentLength + segments - 1`
when the format is appkey (the extra `segments - 1` characters being the
separating dashes). -/
theorem C1_output_length {o : Options} {g : Entropy} {k : Nat}
    {out : List Char} {k' : Nat}
    (hfmt : o.format = FormatGeneric ∨ o.format = FormatAppKey)
    (h : Generate o g k = .ok out k') :
    (out.length : Int) =
      if o.format = FormatGeneric then o.length
      else o.segments * o.segmentLength + o.segments - 1 := by
  rcases hfmt with hf | hf
  · rw [Generate_eq_generic g k hf] at h
    obtain ⟨hpos, _, hlen, _, _, _⟩ := generateGeneric_ok h
    rw [if_pos hf, hlen]
    omega
  · rw [Generate_eq_appkey g k hf] at h
    obtain ⟨hs, ht, core, hcore, hclen, hout⟩ := generateAppKey_ok h
    have hif : ¬o.format = FormatGeneric := by
      rw [hf]
      decide
    rw [if_neg hif, hout]
    obtain ⟨hcl, hcm⟩ := chunkList_shape o.segments.toNat core hclen
    rw [joinWithDash_length (by omega) hcl hcm]
    obtain ⟨s', hseq⟩ : ∃ s', o.segments.toNat = s' + 1 :=
      ⟨o.segments.toNat - 1, by omega⟩
    rw [hseq]
    have hs2 : o.segments = ((s' + 1 : Nat) : Int) := by omega
    have ht2 : o.segmentLength = ((o.segmentLength.toNat : Nat) : Int) :=
      (Int.toNat_of_nonneg ht.le).symm
    rw [hs2, ht2]
    simp only [Int.toNat_ofNat, Nat.add_sub_cancel]
    push_cast
    ring

/-- Sample configuration: generic format, length 4, lowercase only. -/
def oW1 : Options :=
  { format := "generic", length := 4, useLower := true, useUpper := false,
    useNumber := false, useSymbol := false, minLower := 0, minUpper := 0,
    minNumber := 0, minSymbol := 0, segments := 4, segmentLength := 4 }

theorem C1_output_length_witness :
    ((['a', 'a', 'a', 'a'] : List Char).length : Int) =
      if oW1.format = FormatGeneric then oW1.length
      else oW1.segments * oW1.segmentLength + oW1.segments - 1 :=
  @C1_output_length oW1 gZero 0 ['a', 'a', 'a', 'a'] 7 (Or.inl rfl) (by decide)

/-- C2: whenever `Generate` succeeds for the generic or appkey format,
each toggled-on class occurs in the generated characters (for appkey:
the characters before dash insertion, pinned to exactly
`segments * segmentLength` of them) at least its declared minimum
number of times. -/
theorem C2_min_counts {o : Options} {g : Entropy} {k : Nat}
    {out : List Char} {k' : Nat}
    (hfmt : o.format = FormatGeneric ∨ o.format = FormatAppKey)
    (h : Generate o g k = .ok out k') :
    ∃ core : List Char,
      (o.format = FormatGeneric → core = out) ∧
      (o.format = FormatAppKey →
        core.length = o.segments.toNat * o.segmentLength.toNat ∧
        out = joinWithDash
          (chunkList core o.segments.toNat o.segmentLength.toNat)) ∧
      (o.useLower = true → o.minLower.toNat ≤ countIn core lowerChars) ∧
      (o.useUpper = true → o.minUpper.toNat ≤ countIn core upperChars) ∧
      (o.useNumber = true → o.minNumber.toNat ≤ countIn core numberChars) ∧
      (o.useSymbol = true → o.minSymbol.toNat ≤ countIn core symbolChars) := by
  rcases hfmt with hf | hf
  · rw [Generate_eq_generic g k hf] at h
    obtain ⟨_, _, _, _, hcnt, _⟩ := generateGeneric_ok h
    refine ⟨out, fun _ => rfl, fun hfa => ?_,
      fun hl => hcnt _ (mem_maskedPairs_lower hl),
      fun hu => hcnt _ (mem_maskedPairs_upper hu),
      fun hn => hcnt _ (mem_maskedPairs_number hn),
      fun hsy => hcnt _ (mem_maskedPairs_symbol hsy)⟩
    rw [hf] at hfa
    exact absurd hfa (by decide)
  · rw [Generate_eq_appkey g k hf] at h
    obtain ⟨hs, ht, core, hcore, hclen, hout⟩ := generateAppKey_ok h
    obtain ⟨_, _, _, _, hcnt, _⟩ := generateGeneric_ok hcore
    refine ⟨core, fun hfg => ?_, fun _ => ⟨hclen, hout⟩,
      fun hl => hcnt _ (mem_maskedPairs_lower hl),
      fun hu => hcnt _ (mem_maskedPairs_upper hu),
      fun hn => hcnt _ (mem_maskedPairs_number hn),
      fun hsy => hcnt _ (mem_maskedPairs_symbol hsy)⟩
    rw [hf] at hfg
    exact absurd hfg (by decide)

/-- Sample configuration: generic, length 4, lowercase and digits with
minima 1 and 2. -/
def oW2 : Options :=
  { format := "generic", length := 4, useLower := true, useUpper := false,
    useNumber := true, useSymbol := false, minLower := 1, minUpper := 0,
    minNumber := 2, minSymbol := 0, segments := 4, segmentLength := 4 }

theorem C2_min_counts_witness :
    ∃ core : List Char,
      (oW2.format = FormatGeneric → core = ['0', '0', 'a', 'a']) ∧
      (oW2.format = FormatAppKey →
        core.length = oW2.segments.toNat * oW2.segmentLength.toNat ∧
        ['0', '0', 'a', 'a'] = joinWithDash
          (chunkList core oW2.segments.toNat oW2.segmentLength.toNat)) ∧
      (oW2.useLower = true → oW2.minLower.toNat ≤ countIn core lowerChars) ∧
      (oW2.useUpper = true → oW2.minUpper.toNat ≤ countIn core upperChars) ∧
      (oW2.useNumber = true → oW2.minNumber.toNat ≤ countIn core numberChars) ∧
      (oW2.useSymbol = true → oW2.minSymbol.toNat ≤ countIn core symbolChars) :=
  @C2_min_counts oW2 gZero 0 ['0', '0', 'a', 'a'] 7 (Or.inl rfl) (by decide)

/-- C3: every character of a successful generic output, and every
generated (non-separator) character of a successful appkey output,
belongs to a toggled-on class; no character of a disabled class's set
appears among them. -/
theorem C3_enabled_classes_only {o : Options} {g : Entropy} {k : Nat}
    {out : List Char} {k' : Nat}
    (hfmt : o.format = FormatGeneric ∨ o.format = FormatAppKey)
    (h : Generate o g k = .ok out k') :
    ∃ core : List Char,
      (o.format = FormatGeneric → core = out) ∧
      (o.format = FormatAppKey →
        out = joinWithDash
          (chunkList core o.segments.toNat o.segmentLength.toNat)) ∧
      (∀ c ∈ core,
        (o.useLower = true ∧ c ∈ lowerChars) ∨
        (o.useUpper = true ∧ c ∈ upperChars) ∨
        (o.useNumber = true ∧ c ∈ numberChars) ∨
        (o.useSymbol = true ∧ c ∈ symbolChars)) ∧
      (o.useLower = false → ∀ c ∈ core, c ∉ lowerChars) ∧
      (o.useUpper = false → ∀ c ∈ core, c ∉ upperChars) ∧
      (o.useNumber = false → ∀ c ∈ core, c ∉ numberChars) ∧
      (o.useSymbol = false → ∀ c ∈ core, c ∉ symbolChars) := by
  rcases hfmt with hf | hf
  · rw [Generate_eq_generic g k hf] at h
    obtain ⟨_, _, _, hmem, _, _⟩ := generateGeneric_ok h
    refine ⟨out, fun _ => rfl, fun hfa => ?_,
      fun c hc => mem_enabled_of_pool (hmem c hc),
      fun hd c hc => not_lower_of_disabled hd (mem_enabled_of_pool (hmem c hc)),
      fun hd c hc => not_upper_of_disabled hd (mem_enabled_of_pool (hmem c hc)),
      fun hd c hc => not_number_of_disabled hd (mem_enabled_of_pool (hmem c hc)),
      fun hd c hc => not_symbol_of_disabled hd (mem_enabled_of_pool (hmem c hc))⟩
    rw [hf] at hfa
    exact absurd hfa (by decide)
  · rw [Generate_eq_appkey g k hf] at h
    obtain ⟨hs, ht, core, hcore, hclen, hout⟩ := generateAppKey_ok h
    obtain ⟨_, _, _, hmem, _, _⟩ := generateGeneric_ok hcore
    refine ⟨core, fun hfg => ?_, fun _ => hout,
      fun c hc => mem_enabled_of_pool (hmem c hc),
      fun hd c hc => not_lower_of_disabled hd (mem_enabled_of_pool (hmem c hc)),
      fun hd c hc => not_upper_of_disabled hd (mem_enabled_of_pool (hmem c hc)),
      fun hd c hc => not_number_of_disabled hd (mem_enabled_of_pool (hmem c hc)),
      fun hd c hc => not_symbol_of_disabled hd (mem_enabled_of_pool (hmem c hc))⟩
    rw [hf] at hfg
    exact absurd hfg (by decide)

/-- Sample configuration: appkey format, 3 segments of 2 characters,
lowercase only. -/
def oW3 : Options :=
  { format := "appkey", length := 16, useLower := true, useUpper := false,
    useNumber := false, useSymbol := false, minLower := 0, minUpper := 0,
    minNumber := 0, minSymbol := 0, segments := 3, segmentLength := 2 }

theorem C3_enabled_classes_only_witness :
    ∃ core : List Char,
      (oW3.format = FormatGeneric → core = ['a', 'a', '-', 'a', 'a', '-', 'a', 'a']) ∧
      (oW3.format = FormatAppKey →
        ['a', 'a', '-', 'a', 'a', '-', 'a', 'a'] = joinWithDash
          (chunkList core oW3.segments.toNat oW3.segmentLength.toNat)) ∧
      (∀ c ∈ core,
        (oW3.useLower = true ∧ c ∈ lowerChars) ∨
        (oW3.useUpper = true ∧ c ∈ upperChars) ∨
        (oW3.useNumber = true ∧ c ∈ numberChars) ∨
        (oW3.useSymbol = true ∧ c ∈ symbolChars)) ∧
      (oW3.useLower = false → ∀ c ∈ core, c ∉ lowerChars) ∧
      (oW3.useUpper = false → ∀ c ∈ core, c ∉ upperChars) ∧
      (oW3.useNumber = false → ∀ c ∈ core, c ∉ numberChars) ∧
      (oW3.useSymbol = false → ∀ c ∈ core, c ∉ symbolChars) :=
  @C3_enabled_classes_only oW3 gZero 0 ['a', 'a', '-', 'a', 'a', '-', 'a', 'a'] 11 (Or.inr rfl) (by decide)

/-- C4: for a validated configuration (generic, or appkey at its derived
length), `Generate` fails with `minimaExceedLength` exactly when the sum
of the enabled minima exceeds the derived length; when the sum equals
the length exactly, generation succeeds (under a never-failing entropy
source) and each enabled class contributes exactly its minimum. -/
theorem C4_minima_boundary {o : Options} (g : Entropy) (k : Nat)
    (hfmt : o.format = FormatGeneric ∨ o.format = FormatAppKey)
    (happ : o.format = FormatAppKey → 0 < o.segments ∧ 0 < o.segmentLength)
    (hlen : 0 < (if o.format = FormatGeneric then o.length
      else o.segments * o.segmentLength))
    (hcol : collectClassesAndValidate o = .ok (maskedSets o, maskedMins o)) :
    ((∃ a b, Generate o g k = .err (.minimaExceedLength a b)) ↔
      (maskedMins o).foldl (fun a v => a + v) 0 >
        (if o.format = FormatGeneric then o.length
         else o.segments * o.segmentLength)) ∧
    ((maskedMins o).foldl (fun a v => a + v) 0 =
        (if o.format = FormatGeneric then o.length
         else o.segments * o.segmentLength) →
      (∀ j, (g j).isSome) →
      ∃ out k', Generate o g k = .ok out k' ∧
        ∃ core : List Char,
          (o.format = FormatGeneric → core = out) ∧
          (o.format = FormatAppKey →
            core.length = o.segments.toNat * o.segmentLength.toNat ∧
            out = joinWithDash
              (chunkList core o.segments.toNat o.segmentLength.toNat)) ∧
          (o.useLower = true → countIn core lowerChars = o.minLower.toNat) ∧
          (o.useUpper = true → countIn core upperChars = o.minUpper.toNat) ∧
          (o.useNumber = true → countIn core numberChars = o.minNumber.toNat) ∧
          (o.useSymbol = true →
            countIn core symbolChars = o.minSymbol.toNat)) := by
  rcases hfmt with hf | hf
  · rw [Generate_eq_generic g k hf]
    rw [if_pos hf] at hlen ⊢
    constructor
    · exact generic_minimaIff g k hlen hcol
    · intro heq hg
      obtain ⟨out, k', hok, hc1, hc2, hc3, hc4⟩ :=
        generic_exact g k hlen hcol heq hg
      refine ⟨out, k', hok, out, fun _ => rfl, fun hfa => ?_,
        hc1, hc2, hc3, hc4⟩
      rw [hf] at hfa
      exact absurd hfa (by decide)
  · rw [Generate_eq_appkey g k hf]
    have hfa : ¬o.format = FormatGeneric := by
      rw [hf]
      decide
    rw [if_neg hfa] at hlen ⊢
    obtain ⟨hs, ht⟩ := happ hf
    constructor
    · constructor
      · rintro ⟨a, b, h⟩
        rcases generateAppKey_err_elim h with ⟨_, he⟩ | ⟨_, _, he⟩ |
          ⟨_, _, hger⟩
        · exact absurd he (by simp)
        · exact absurd he (by simp)
        · exact (@generic_minimaIff
            { o with length := o.segments * o.segmentLength, format := FormatGeneric } g k hlen hcol).mp ⟨a, b, hger⟩
      · intro hgt
        obtain ⟨a, b, hger⟩ := (@generic_minimaIff
          { o with length := o.segments * o.segmentLength, format := FormatGeneric } g k hlen hcol).mpr hgt
        exact ⟨a, b, generateAppKey_err_of_generic (by omega) (by omega) hger⟩
    · intro heq hg
      obtain ⟨core, k', hok, hc1, hc2, hc3, hc4⟩ := @generic_exact
        { o with length := o.segments * o.segmentLength, format := FormatGeneric } g k hlen hcol heq hg
      obtain ⟨_, _, hlen2, _, _, _⟩ := generateGeneric_ok hok
      have hclen : core.length = o.segments.toNat * o.segmentLength.toNat := by
        rw [hlen2]
        exact toNat_mul_pos hs ht
      have happk : generateAppKey o g k =
          .ok (joinWithDash
            (chunkList core o.segments.toNat o.segmentLength.toNat)) k' := by
        rw [generateAppKey_eq g k hs ht, hok]
      refine ⟨_, k', happk, core, fun hfg => ?_, fun _ => ⟨hclen, rfl⟩,
        hc1, hc2, hc3, hc4⟩
      rw [hf] at hfg
      exact absurd hfg (by decide)

/-- Sample configuration: generic, length 3, lowercase (minimum 1) and
digits (minimum 2): the minima sum equals the length exactly. -/
def oW4 : Options :=
  { format := "generic", length := 3, useLower := true, useUpper := false,
    useNumber := true, useSymbol := false, minLower := 1, minUpper := 0,
    minNumber := 2, minSymbol := 0, segments := 4, segmentLength := 4 }

theorem C4_minima_boundary_witness :
    ((∃ a b, Generate oW4 gZero 0 = .err (.minimaExceedLength a b)) ↔
      (maskedMins oW4).foldl (fun a v => a + v) 0 >
        (if oW4.format = FormatGeneric then oW4.length
         else oW4.segments * oW4.segmentLength)) ∧
    ((maskedMins oW4).foldl (fun a v => a + v) 0 =
        (if oW4.format = FormatGeneric then oW4.length
         else oW4.segments * oW4.segmentLength) →
      (∀ j, (gZero j).isSome) →
      ∃ out k', Generate oW4 gZero 0 = .ok out k' ∧
        ∃ core : List Char,
          (oW4.format = FormatGeneric → core = out) ∧
          (oW4.format = FormatAppKey →
            core.length = oW4.segments.toNat * oW4.segmentLength.toNat ∧
            out = joinWithDash
              (chunkList core oW4.segments.toNat oW4.segmentLength.toNat)) ∧
          (oW4.useLower = true → countIn core lowerChars = oW4.minLower.toNat) ∧
          (oW4.useUpper = true → countIn core upperChars = oW4.minUpper.toNat) ∧
          (oW4.useNumber = true →
            countIn core numberChars = oW4.minNumber.toNat) ∧
          (oW4.useSymbol = true →
            countIn core symbolChars = oW4.minSymbol.toNat)) :=
  C4_minima_boundary gZero 0 (Or.inl rfl) (fun hfa => absurd hfa (by decide))
    (by decide) (by rfl)

/-- Sample configuration refuting C5: a negative minimum attached to a
disabled class (lowercase off, `minLower = -1`). -/
def oC5 : Options :=
  { format := "generic", length := 5, useLower := false, useUpper := true,
    useNumber := false, useSymbol := false, minLower := -1, minUpper := 0,
    minNumber := 0, minSymbol := 0, segments := 4, segmentLength := 4 }

/-- C5 counterexample: with `minLower = -1` on the disabled lowercase
class, `Generate` does not fail with `negativeMinimum` — it succeeds. -/
theorem C5_counterexample :
    oC5.useLower = false ∧ oC5.minLower < 0 ∧
    Generate oC5 gZero 0 ≠ .err .negativeMinimum ∧
    Generate oC5 gZero 0 = .ok ['A', 'A', 'A', 'A', 'A'] 9 := by decide

/-- C5 amended: with the earlier checks passing (positive derived length,
no positive minimum on a disabled class, at least one class enabled),
`Generate` fails with `negativeMinimum` exactly when some toggled-on
class has a negative minimum; negative minima attached to toggled-off
classes are silently ignored. -/
theorem C5_amended {o : Options} (g : Entropy) (k : Nat)
    (hfmt : o.format = FormatGeneric ∨ o.format = FormatAppKey)
    (hgen : o.format = FormatGeneric → 0 < o.length)
    (happ : o.format = FormatAppKey → 0 < o.segments ∧ 0 < o.segmentLength)
    (h1 : ¬(o.useLower = false ∧ 0 < o.minLower))
    (h2 : ¬(o.useUpper = false ∧ 0 < o.minUpper))
    (h3 : ¬(o.useNumber = false ∧ 0 < o.minNumber))
    (h4 : ¬(o.useSymbol = false ∧ 0 < o.minSymbol))
    (h5 : (maskedSets o).length ≠ 0) :
    Generate o g k = .err .negativeMinimum ↔
      ((o.useLower = true ∧ o.minLower < 0) ∨
       (o.useUpper = true ∧ o.minUpper < 0) ∨
       (o.useNumber = true ∧ o.minNumber < 0) ∨
       (o.useSymbol = true ∧ o.minSymbol < 0)) := by
  rcases hfmt with hf | hf
  · rw [Generate_eq_generic g k hf]
    exact generic_negIff g k (hgen hf) h1 h2 h3 h4 h5
  · rw [Generate_eq_appkey g k hf]
    obtain ⟨hs, ht⟩ := happ hf
    constructor
    · intro h
      rcases generateAppKey_err_elim h with ⟨_, he⟩ | ⟨_, _, he⟩ |
        ⟨_, _, hger⟩
      · exact absurd he (by simp)
      · exact absurd he (by simp)
      · exact (@generic_negIff
          { o with length := o.segments * o.segmentLength, format := FormatGeneric } g k (mul_pos hs ht) h1 h2 h3 h4 h5).mp hger
    · intro hneg
      have hger : generateGeneric
          { o with length := o.segments * o.segmentLength,
                   format := FormatGeneric } g k = .err .negativeMinimum :=
        (@generic_negIff
          { o with length := o.segments * o.segmentLength, format := FormatGeneric } g k (mul_pos hs ht) h1 h2 h3 h4 h5).mpr hneg
      exact generateAppKey_err_of_generic (by omega) (by omega) hger

/-- Sample configuration: generic, lowercase enabled with `minLower = -2`. -/
def oW5 : Options :=
  { format := "generic", length := 5, useLower := true, useUpper := false,
    useNumber := false, useSymbol := false, minLower := -2, minUpper := 0,
    minNumber := 0, minSymbol := 0, segments := 4, segmentLength := 4 }

theorem C5_amended_witness :
    Generate oW5 gZero 0 = .err .negativeMinimum ↔
      ((oW5.useLower = true ∧ oW5.minLower < 0) ∨
       (oW5.useUpper = true ∧ oW5.minUpper < 0) ∨
       (oW5.useNumber = true ∧ oW5.minNumber < 0) ∨
       (oW5.useSymbol = true ∧ oW5.minSymbol < 0)) :=
  C5_amended gZero 0 (Or.inl rfl) (fun _ => by decide)
    (fun hfa => absurd hfa (by decide)) (by decide) (by decide) (by decide)
    (by decide) (by decide)

/-- The entropy stream that serves the first two draws and then fails. -/
def gFail2 : Entropy := fun k => if k < 2 then some 0 else none

/-- The entropy stream that fails immediately. -/
def gFail0 : Entropy := fun _ => none

/-- Sample configuration: generic, length 2, lowercase only, no minima.
Its two fill draws succeed under `gFail2`; the single Fisher–Yates draw
then hits the failing entropy source. -/
def oC6 : Options :=
  { format := "generic", length := 2, useLower := true, useUpper := false,
    useNumber := false, useSymbol := false, minLower := 0, minUpper := 0,
    minNumber := 0, minSymbol := 0, segments := 4, segmentLength := 4 }

/-- C6: an entropy-source failure during the Fisher–Yates shuffle is not
surfaced as an error result: `shuffleRunes` discards the error returned
by `rand.Int` and dereferences the nil result, a panic (modelled as
`crash`) rather than a returned error.  A failure during the
`randomRune` draws, by contrast, is propagated (third conjunct). -/
theorem C6_entropy_failure_not_propagated_in_shuffle :
    Generate oC6 gFail2 0 = .crash ∧
    Generate oC6 gFail2 0 ≠ .err .entropyFailure ∧
    Generate oC6 gFail0 0 = .err .entropyFailure := by decide

/-- C7: for every configuration with the guid format, `Generate` returns
a 36-character string with hyphens exactly at positions 8, 13, 18 and 23,
every other position a lowercase hexadecimal digit, position 14 equal to
`4` and position 19 one of `8`, `9`, `a`, `b`; the result depends only on
the 16 drawn random bytes and on no other configuration field. -/
theorem C7_guid_format {o : Options} (g : Entropy) (k : Nat)
    (hfmt : o.format = FormatGUID) (hg : ∀ j, (g j).isSome) :
    (∀ o' : Options, o'.format = FormatGUID →
      Generate o' g k = Generate o g k) ∧
    ∃ u, Generate o g k = .ok u (k + 16) ∧
      u.length = 36 ∧
      u.getD 8 ' ' = '-' ∧ u.getD 13 ' ' = '-' ∧
      u.getD 18 ' ' = '-' ∧ u.getD 23 ' ' = '-' ∧
      u.getD 14 ' ' = '4' ∧
      (u.getD 19 ' ' = '8' ∨ u.getD 19 ' ' = '9' ∨
       u.getD 19 ' ' = 'a' ∨ u.getD 19 ' ' = 'b') ∧
      (∀ p, p < 36 → p ≠ 8 → p ≠ 13 → p ≠ 18 → p ≠ 23 →
        u.getD p ' ' ∈ hexdigits) := by
  constructor
  · intro o' h'
    rw [Generate_eq_guid g k h', Generate_eq_guid g k hfmt]
  · rw [Generate_eq_guid g k hfmt]
    exact generateUUIDv4_spec k hg

/-- Sample configuration: guid format (all other fields present but
irrelevant). -/
def oW7 : Options :=
  { format := "guid", length := 16, useLower := true, useUpper := true,
    useNumber := true, useSymbol := true, minLower := 0, minUpper := 0,
    minNumber := 0, minSymbol := 0, segments := 4, segmentLength := 4 }

theorem C7_guid_format_witness :
    (∀ o' : Options, o'.format = FormatGUID →
      Generate o' gZero 0 = Generate oW7 gZero 0) ∧
    ∃ u, Generate oW7 gZero 0 = .ok u (0 + 16) ∧
      u.length = 36 ∧
      u.getD 8 ' ' = '-' ∧ u.getD 13 ' ' = '-' ∧
      u.getD 18 ' ' = '-' ∧ u.getD 23 ' ' = '-' ∧
      u.getD 14 ' ' = '4' ∧
      (u.getD 19 ' ' = '8' ∨ u.getD 19 ' ' = '9' ∨
       u.getD 19 ' ' = 'a' ∨ u.getD 19 ' ' = 'b') ∧
      (∀ p, p < 36 → p ≠ 8 → p ≠ 13 → p ≠ 18 → p ≠ 23 →
        u.getD p ' ' ∈ hexdigits) :=
  C7_guid_format gZero 0 rfl (fun _ => rfl)

/-- C8: for the appkey format with positive segment parameters,
`Generate` equals the generic generation of length
`segments * segmentLength` over the same entropy stream, re-partitioned
in order into `segments` groups of `segmentLength` characters joined by
single dashes; non-positive `segments` fails with `segmentsNotPositive`
and non-positive `segmentLength` with `segmentLengthNotPositive`. -/
theorem C8_appkey_refines_generic {o : Options} (g : Entropy) (k : Nat)
    (hfmt : o.format = FormatAppKey) :
    (0 < o.segments → 0 < o.segmentLength →
      Generate o g k =
        match generateGeneric
            { o with length := o.segments * o.segmentLength,
                     format := FormatGeneric } g k with
        | .ok core k1 => .ok (joinWithDash
            (chunkList core o.segments.toNat o.segmentLength.toNat)) k1
        | .err e => .err e
        | .crash => .crash) ∧
    (o.segments ≤ 0 → Generate o g k = .err .segmentsNotPositive) ∧
    (0 < o.segments → o.segmentLength ≤ 0 →
      Generate o g k = .err .segmentLengthNotPositive) := by
  rw [Generate_eq_appkey g k hfmt]
  exact ⟨fun hs ht => generateAppKey_eq g k hs ht,
    fun hs => generateAppKey_err_segments g k hs,
    fun hs ht => generateAppKey_err_segmentLength g k (by omega) ht⟩

theorem C8_appkey_refines_generic_witness :
    (0 < oW3.segments → 0 < oW3.segmentLength →
      Generate oW3 gZero 0 =
        match generateGeneric
            { oW3 with length := oW3.segments * oW3.segmentLength,
                       format := FormatGeneric } gZero 0 with
        | .ok core k1 => .ok (joinWithDash
            (chunkList core oW3.segments.toNat oW3.segmentLength.toNat)) k1
        | .err e => .err e
        | .crash => .crash) ∧
    (oW3.segments ≤ 0 → Generate oW3 gZero 0 = .err .segmentsNotPositive) ∧
    (0 < oW3.segments → oW3.segmentLength ≤ 0 →
      Generate oW3 gZero 0 = .err .segmentLengthNotPositive) :=
  C8_appkey_refines_generic gZero 0 rfl

/-- C9: (for generic or appkey with positive derived-length parameters)
a positive minimum on a toggled-off class fails with
`disabledClassMinimum`, and all four toggles off with no positive
minimum set fails with `noClassesEnabled`. -/
theorem C9_pool_validation {o : Options} (g : Entropy) (k : Nat)
    (hfmt : o.format = FormatGeneric ∨ o.format = FormatAppKey)
    (hgen : o.format = FormatGeneric → 0 < o.length)
    (happ : o.format = FormatAppKey → 0 < o.segments ∧ 0 < o.segmentLength) :
    (((o.useLower = false ∧ 0 < o.minLower) ∨
      (o.useUpper = false ∧ 0 < o.minUpper) ∨
      (o.useNumber = false ∧ 0 < o.minNumber) ∨
      (o.useSymbol = false ∧ 0 < o.minSymbol)) →
      ∃ cls, Generate o g k = .err (.disabledClassMinimum cls)) ∧
    ((o.useLower = false ∧ o.useUpper = false ∧ o.useNumber = false ∧
        o.useSymbol = false) →
      (o.minLower ≤ 0 ∧ o.minUpper ≤ 0 ∧ o.minNumber ≤ 0 ∧
        o.minSymbol ≤ 0) →
      Generate o g k = .err .noClassesEnabled) := by
  constructor
  · intro hdis
    obtain ⟨cls, hcol⟩ := collect_err_disabled hdis
    rcases hfmt with hf | hf
    · refine ⟨cls, ?_⟩
      rw [Generate_eq_generic g k hf]
      exact generateGeneric_err_of_collect (by have := hgen hf; omega) hcol
    · obtain ⟨hs, ht⟩ := happ hf
      refine ⟨cls, ?_⟩
      rw [Generate_eq_appkey g k hf]
      refine generateAppKey_err_of_generic (by omega) (by omega) ?_
      exact generateGeneric_err_of_collect
        (by show ¬o.segments * o.segmentLength ≤ 0
            have := mul_pos hs ht
            omega) hcol
  · intro hoff hmins
    have h5 : (maskedSets o).length = 0 := by
      unfold maskedSets
      rw [hoff.1, hoff.2.1, hoff.2.2.1, hoff.2.2.2]
      rfl
    have hcol := collect_err_noClasses
      (fun hc => absurd hc.2 (by have := hmins.1; omega))
      (fun hc => absurd hc.2 (by have := hmins.2.1; omega))
      (fun hc => absurd hc.2 (by have := hmins.2.2.1; omega))
      (fun hc => absurd hc.2 (by have := hmins.2.2.2; omega)) h5
    rcases hfmt with hf | hf
    · rw [Generate_eq_generic g k hf]
      exact generateGeneric_err_of_collect (by have := hgen hf; omega) hcol
    · obtain ⟨hs, ht⟩ := happ hf
      rw [Generate_eq_appkey g k hf]
      refine generateAppKey_err_of_generic (by omega) (by omega) ?_
      exact generateGeneric_err_of_collect
        (by show ¬o.segments * o.segmentLength ≤ 0
            have := mul_pos hs ht
            omega) hcol

/-- Sample configuration: generic, lowercase disabled but `minLower = 3`. -/
def oW9 : Options :=
  { format := "generic", length := 5, useLower := false, useUpper := true,
    useNumber := false, useSymbol := false, minLower := 3, minUpper := 0,
    minNumber := 0, minSymbol := 0, segments := 4, segmentLength := 4 }

theorem C9_pool_validation_witness :
    (((oW9.useLower = false ∧ 0 < oW9.minLower) ∨
      (oW9.useUpper = false ∧ 0 < oW9.minUpper) ∨
      (oW9.useNumber = false ∧ 0 < oW9.minNumber) ∨
      (oW9.useSymbol = false ∧ 0 < oW9.minSymbol)) →
      ∃ cls, Generate oW9 gZero 0 = .err (.disabledClassMinimum cls)) ∧
    ((oW9.useLower = false ∧ oW9.useUpper = false ∧ oW9.useNumber = false ∧
        oW9.useSymbol = false) →
      (oW9.minLower ≤ 0 ∧ oW9.minUpper ≤ 0 ∧ oW9.minNumber ≤ 0 ∧
        oW9.minSymbol ≤ 0) →
      Generate oW9 gZero 0 = .err .noClassesEnabled) :=
  C9_pool_validation gZero 0 (Or.inl rfl) (fun _ => by decide)
    (fun hfa => absurd hfa (by decide))

/-- C10: for the generic format with a non-positive length, `Generate`
fails with the length error regardless of every other field — in
particular this check precedes class-pool validation. -/
theorem C10_length_precondition {o : Options} (g : Entropy) (k : Nat)
    (hfmt : o.format = FormatGeneric) (hlen : o.length ≤ 0) :
    Generate o g k = .err .lengthNotPositive := by
  rw [Generate_eq_generic g k hfmt]
  unfold generateGeneric
  rw [if_pos hlen]

/-- Sample configuration: generic, length 0 and all classes disabled (so
the length error wins over `noClassesEnabled`). -/
def oW10 : Options :=
  { format := "generic", length := 0, useLower := false, useUpper := false,
    useNumber := false, useSymbol := false, minLower := 0, minUpper := 0,
    minNumber := 0, minSymbol := 0, segments := 4, segmentLength := 4 }

theorem C10_length_precondition_witness :
    Generate oW10 gZero 0 = .err .lengthNotPositive :=
  C10_length_precondition gZero 0 rfl (by decide)

end Pwgen
